import Mathlib

/-!
Shallow embedding of the `vscode-agent-skills` skill-resolution pipeline
(`src/github/skillsClient.ts` and the installed-skills scanner) together
with proofs about its specification.  JavaScript strings are modelled as
lists of characters; wall-clock times are naturals (milliseconds);
network access is modelled by an explicit environment of responses, and
the mutable cache map is threaded explicitly.  All functions assume LF
line endings (the `\r?` alternatives of the source regexes are not
exercised by any claim).
-/

abbrev Str := List Char

namespace AgentSkills

/-- JS `\w` character class: ASCII letters, digits, underscore. -/
def wordChar (c : Char) : Bool := c.isAlpha || c.isDigit || c = '_'

/-- Whitespace as recognised by JS `trim` / `\s` (ASCII fragment). -/
def isWs (c : Char) : Bool := c = ' ' || c = '\t' || c = '\n' || c = '\r'

def trimLeft (s : Str) : Str := s.dropWhile isWs

def trimRight (s : Str) : Str := (s.reverse.dropWhile isWs).reverse

/-- JS `s.trim()`. -/
def trim (s : Str) : Str := trimLeft (trimRight s)

/-- JS `s.split(c)` for a one-character separator. -/
def splitOnChar (c : Char) : Str → List Str
  | [] => [[]]
  | a :: rest =>
    let r := splitOnChar c rest
    if a = c then [] :: r
    else
      match r with
      | [] => [[a]]
      | h :: t => (a :: h) :: t

/-- Join strings with a separator character; used to build manifest
texts (and space-joined multiline values) in theorem statements. -/
def joinWith (sep : Char) : List Str → Str
  | [] => []
  | [l] => l
  | l :: l2 :: ls => l ++ sep :: joinWith sep (l2 :: ls)

/-- Join lines with `'\n'` (inverse of `splitOnChar '\n'` on newline-free
lines). -/
def joinLines (ls : List Str) : Str := joinWith '\n' ls

/-- Parser for the `(?:-\w+)*:` tail of the key pattern of
`parseYamlFrontmatter`; returns the consumed key characters after the
leading word group, and the text after the colon.  Structural recursion
on a fuel bounded by the input length (each step consumes at least two
characters, so the fuel never runs out when initialised to the
length). -/
def keyTailAux : Nat → Str → Option (Str × Str)
  | _, [] => none
  | 0, c :: rest => if c = ':' then some ([], rest) else none
  | fuel + 1, c :: rest =>
    if c = ':' then some ([], rest)
    else if c = '-' then
      let w := rest.takeWhile wordChar
      if w.isEmpty then none
      else
        match keyTailAux fuel (rest.drop w.length) with
        | some (kp, r) => some ('-' :: (w ++ kp), r)
        | none => none
    else none

def keyTail (s : Str) : Option (Str × Str) := keyTailAux s.length s

/-- JS regex `^(\w+(?:-\w+)*):\s*(.*)$` of `parseYamlFrontmatter`,
returning the key and the raw text after the colon (the `\s*` skip is
subsumed by the `trim` every use site applies to the captured value). -/
def keyMatch (l : Str) : Option (Str × Str) :=
  let w := l.takeWhile wordChar
  if w.isEmpty then none
  else
    match keyTail (l.drop w.length) with
    | some (kp, rest) => some (w ++ kp, rest)
    | none => none

/-- `SkillMetadata` from `types.ts`, restricted to the fields that
`setMetadataValue` can populate (the open `metadata` mapping is never
written by the source). -/
structure SkillMetadata where
  name : Str
  description : Str
  license : Option Str := none
  compatibility : Option Str := none
  allowedTools : Option Str := none
deriving DecidableEq, Repr

/-- `setMetadataValue` (skillsClient.ts): the fixed key dispatch. -/
def setMetadataValue (m : SkillMetadata) (key value : Str) : SkillMetadata :=
  if key = ("name").data then { m with name := value }
  else if key = ("description").data then { m with description := value }
  else if key = ("license").data then { m with license := some value }
  else if key = ("compatibility").data then { m with compatibility := some value }
  else if key = ("allowed-tools").data then { m with allowedTools := some value }
  else m

/-- Loop state of `parseYamlFrontmatter`: the metadata built so far,
`currentKey` and the accumulated `multilineValue`. -/
structure YamlState where
  meta : SkillMetadata
  currentKey : Str
  multilineValue : Str
deriving DecidableEq, Repr

/-- One iteration of the `for (const line of lines)` loop of
`parseYamlFrontmatter`. -/
def yamlStep (st : YamlState) (line : Str) : YamlState :=
  match keyMatch line with
  | some (k, raw) =>
    let m1 :=
      if st.currentKey ≠ [] ∧ st.multilineValue ≠ [] then
        setMetadataValue st.meta st.currentKey (trim st.multilineValue)
      else st.meta
    let value := trim raw
    if value ≠ [] then ⟨setMetadataValue m1 k value, [], []⟩
    else ⟨m1, k, []⟩
  | none =>
    if st.currentKey ≠ [] ∧ [' ', ' '].isPrefixOf line then
      { st with multilineValue := st.multilineValue ++ trim line ++ [' '] }
    else st

/-- `parseYamlFrontmatter` (skillsClient.ts). -/
def parseYamlFrontmatter (yaml : Str) : SkillMetadata :=
  let lines := splitOnChar '\n' yaml
  let st := lines.foldl yamlStep ⟨{ name := [], description := [] }, [], []⟩
  if st.currentKey ≠ [] ∧ st.multilineValue ≠ [] then
    setMetadataValue st.meta st.currentKey (trim st.multilineValue)
  else st.meta

/-- First occurrence of `marker` in a string: the text before and the
text after it (the lazy `[\s\S]*?` of the frontmatter regexes). -/
def splitAtMarker (marker : Str) : Str → Option (Str × Str)
  | [] => none
  | c :: rest =>
    if marker.isPrefixOf (c :: rest) then some ([], (c :: rest).drop marker.length)
    else
      match splitAtMarker marker rest with
      | some (a, b) => some (c :: a, b)
      | none => none

structure ParsedSkillMd where
  metadata : SkillMetadata
  body : Str
deriving DecidableEq, Repr

/-- `parseSkillMd` (skillsClient.ts): frontmatter regex
`^---\r?\n([\s\S]*?)\r?\n---\r?\n([\s\S]*)$`, modelled for LF input. -/
def parseSkillMd (content : Str) : ParsedSkillMd :=
  if ("---\n").data.isPrefixOf content then
    match splitAtMarker ("\n---\n").data (content.drop 4) with
    | some (yaml, body) => ⟨parseYamlFrontmatter yaml, body⟩
    | none => ⟨{ name := [], description := [] }, content⟩
  else ⟨{ name := [], description := [] }, content⟩

/-- `Partial<SkillMetadata>` as produced by the installed-skills
scanner's `parseSkillMdMetadata`. -/
structure InstalledMeta where
  name : Option Str := none
  description : Option Str := none
deriving DecidableEq, Repr

/-- The `\s*(.+)$` tail of the scanner's per-key regexes, applied to the
text running from just after `key:` to the end of the header.  JS `\s`
matches newlines, so the greedy whitespace skip may cross onto following
lines; `.` excludes newlines, so the capture is then the remainder of
the line on which the first non-whitespace character sits (trimmed here,
as `.trim()` is applied at both use sites).  When the whole tail is
whitespace, backtracking still finds a match provided some non-newline
character exists, and its capture trims to the empty string; a tail that
is empty or all newlines yields no match at this anchor. -/
def matchTail (T : Str) : Option Str :=
  if T.dropWhile isWs ≠ [] then
    some (trim ((T.dropWhile isWs).takeWhile (fun c => decide (c ≠ '\n'))))
  else if T.any (fun c => decide (c ≠ '\n')) then some [] else none

/-- The text running from the remainder of a key line to the end of the
header: the remainder followed by each later line preceded by `'\n'`. -/
def lineTail (dropped : Str) (rest : List Str) : Str :=
  dropped ++ (rest.map (fun r => '\n' :: r)).flatten

/-- JS `yaml.match(/^key:\s*(.+)$/m)`: the engine scans line anchors in
order; at the first line starting with the literal `key:`, it attempts
`\s*(.+)$` on the whole remaining text (which may cross newlines, see
`matchTail`); on failure there — possible only when everything after the
colon is newlines or empty — it scans on to later anchors. -/
def firstMatchValue (key : Str) : List Str → Option Str
  | [] => none
  | l :: rest =>
    if (key ++ [':']).isPrefixOf l then
      match matchTail (lineTail (l.drop (key.length + 1)) rest) with
      | some v => some v
      | none => firstMatchValue key rest
    else firstMatchValue key rest

/-- Proof auxiliary (not a model of the source): the same-line
restriction of the key-value scan — the first line starting with `key:`
whose same-line remainder is non-empty, that remainder trimmed.
`firstMatchValue_eq_sameLine` shows the scanner's regex semantics
(`firstMatchValue`) coincide with it on headers whose key lines all
carry non-empty same-line values. -/
def sameLineValue (key : Str) : List Str → Option Str
  | [] => none
  | l :: rest =>
    if (key ++ [':']).isPrefixOf l ∧ l.drop (key.length + 1) ≠ [] then
      some (trim (l.drop (key.length + 1)))
    else sameLineValue key rest

/-- `parseSkillMdMetadata` (installed-skills scanner): frontmatter regex
`^---\r?\n([\s\S]*?)\r?\n---` and the two per-key regexes. -/
def parseSkillMdMetadata (content : Str) : InstalledMeta :=
  if ("---\n").data.isPrefixOf content then
    match splitAtMarker ("\n---").data (content.drop 4) with
    | some (yaml, _) =>
      let lines := splitOnChar '\n' yaml
      { name := firstMatchValue ("name").data lines
        description := firstMatchValue ("description").data lines }
    | none => {}
  else {}

/-- `SkillRepository` from `types.ts` (the optional `singleSkill` flag is
modelled as a `Bool` defaulting to `false`, matching JS truthiness). -/
structure SkillRepository where
  owner : Str
  repo : Str
  path : Str
  branch : Str
  singleSkill : Bool := false
deriving DecidableEq, Repr

/-- `Skill` from `types.ts`. -/
structure Skill where
  name : Str
  description : Str
  license : Option Str
  compatibility : Option Str
  source : SkillRepository
  skillPath : Str
  fullContent : Str
  bodyContent : Str
deriving DecidableEq, Repr

/-- `InstalledSkill` from `types.ts` (`installedAt` is a freshly observed
timestamp irrelevant to every claim and omitted). -/
structure InstalledSkill where
  name : Str
  description : Str
  location : Str
deriving DecidableEq, Repr

inductive TreeItemType
  | blob
  | tree
deriving DecidableEq, Repr

/-- `GitTreeItem` (skillsClient.ts), restricted to the fields the client
reads (`path` and `type`). -/
structure GitTreeItem where
  path : Str
  type : TreeItemType
deriving DecidableEq, Repr

/-- `GitTreeResponse` (skillsClient.ts), restricted to the fields the
client reads. -/
structure GitTreeResponse where
  tree : List GitTreeItem
  truncated : Bool := false
deriving DecidableEq, Repr

/-- The two kinds of value stored in the shared cache map
(`Map<string, CacheEntry<unknown>>`). -/
inductive CachedVal
  | tree (t : GitTreeResponse)
  | raw (s : Str)
deriving DecidableEq, Repr

/-- `CacheEntry` from `types.ts` (`etag` is reserved and never read). -/
structure CacheEntry where
  data : CachedVal
  timestamp : Nat
deriving DecidableEq, Repr

/-- The cache `Map` modelled as an association list where an insertion
shadows older entries for the same key. -/
abbrev Cache := List (Str × CacheEntry)

def lookupC : Cache → Str → Option CacheEntry
  | [], _ => none
  | (k', e) :: rest, k => if k' = k then some e else lookupC rest k

/-- `getFromCache` (skillsClient.ts): the configured timeout is in
seconds and scaled by 1000 against `Date.now()` milliseconds; an expired
entry is deleted and `null` returned.  Returns the value (if fresh) and
the possibly-updated cache. -/
def getFromCache (c : Cache) (now cacheTimeoutSec : Nat) (key : Str) :
    Option CachedVal × Cache :=
  match lookupC c key with
  | none => (none, c)
  | some e =>
    let timeout := cacheTimeoutSec * 1000
    if now - e.timestamp > timeout then
      (none, c.filter (fun p => decide (p.1 ≠ key)))
    else (some e.data, c)

/-- `setCache` (skillsClient.ts): unconditional overwrite stamped with
the current time. -/
def setCache (c : Cache) (key : Str) (v : CachedVal) (now : Nat) : Cache :=
  (key, ⟨v, now⟩) :: c

/-- The listing cache key: `` `tree:${owner}/${repo}@${branch}` ``. -/
def treeKey (owner repo branch : Str) : Str :=
  ("tree:").data ++ owner ++ ("/").data ++ repo ++ ("@").data ++ branch

/-- The raw-file cache key: `` `raw:${owner}/${repo}/${path}@${branch}` ``. -/
def rawKey (owner repo path branch : Str) : Str :=
  ("raw:").data ++ owner ++ ("/").data ++ repo ++ ("/").data ++ path ++
    ("@").data ++ branch

/-- The remote state: the response of the Git Trees endpoint per
`(owner, repo, branch)` and of the raw-content endpoint per
`(owner, repo, path, branch)`; `Except` models a rejected fetch with its
error message. -/
structure NetEnv where
  tree : Str → Str → Str → Except Str GitTreeResponse
  raw : Str → Str → Str → Str → Except Str Str

/-- The source casts the cached `unknown` to the expected type without a
runtime check (`getFromCache<GitTreeResponse>`); the mismatched
constructor is unreachable under the key discipline. -/
def CachedVal.getTree : CachedVal → GitTreeResponse
  | .tree t => t
  | .raw _ => { tree := [] }

def CachedVal.getRaw : CachedVal → Str
  | .raw s => s
  | .tree _ => []

/-- Result of a pipeline operation: its value, the cache afterwards, and
how many listing (`treeCalls`) and raw-content (`rawCalls`) network
fetches it performed. -/
structure FetchSt (α : Type) where
  result : α
  cache : Cache
  treeCalls : Nat
  rawCalls : Nat
deriving Repr

/-- `fetchRepoTree` (skillsClient.ts): cache-checked Git Trees call.  A
non-ok response throws (the message construction is folded into the
environment's error string); a successful response is cached. -/
def fetchRepoTree (env : NetEnv) (now cfg : Nat) (c : Cache)
    (owner repo branch : Str) : FetchSt (Except Str GitTreeResponse) :=
  let key := treeKey owner repo branch
  match getFromCache c now cfg key with
  | (some v, c') => ⟨.ok v.getTree, c', 0, 0⟩
  | (none, c') =>
    match env.tree owner repo branch with
    | .error e => ⟨.error e, c', 1, 0⟩
    | .ok data => ⟨.ok data, setCache c' key (.tree data) now, 1, 0⟩

/-- `fetchRawContent` (skillsClient.ts): cache-checked raw fetch. -/
def fetchRawContent (env : NetEnv) (now cfg : Nat) (c : Cache)
    (owner repo path branch : Str) : FetchSt (Except Str Str) :=
  let key := rawKey owner repo path branch
  match getFromCache c now cfg key with
  | (some v, c') => ⟨.ok v.getRaw, c', 0, 0⟩
  | (none, c') =>
    match env.raw owner repo path branch with
    | .error e => ⟨.error e, c', 0, 1⟩
    | .ok content => ⟨.ok content, setCache c' key (.raw content) now, 0, 1⟩

/-- `fetchSkillMetadataRaw` (skillsClient.ts): fetch `skillPath/SKILL.md`
and build the `Skill`; any fetch failure yields `null` (`none`).  The JS
`||` fallbacks on the falsy empty string become emptiness tests. -/
def fetchSkillMetadataRaw (env : NetEnv) (now cfg : Nat) (c : Cache)
    (repo : SkillRepository) (skillName skillPath : Str) :
    FetchSt (Option Skill) :=
  let skillMdPath := skillPath ++ ("/SKILL.md").data
  let r := fetchRawContent env now cfg c repo.owner repo.repo skillMdPath repo.branch
  match r.result with
  | .error _ => ⟨none, r.cache, r.treeCalls, r.rawCalls⟩
  | .ok content =>
    let parsed := parseSkillMd content
    ⟨some
      { name := if parsed.metadata.name ≠ [] then parsed.metadata.name else skillName
        description :=
          if parsed.metadata.description ≠ [] then parsed.metadata.description
          else ("No description available").data
        license := parsed.metadata.license
        compatibility := parsed.metadata.compatibility
        source := repo
        skillPath := skillPath
        fullContent := content
        bodyContent := parsed.body },
      r.cache, r.treeCalls, r.rawCalls⟩

/-- JS `skillPath.split('/').pop() || skillPath`. -/
def basenameOr (p : Str) : Str :=
  let seg := (splitOnChar '/' p).getLastD []
  if seg ≠ [] then seg else p

/-- JS `path.substring(0, path.lastIndexOf('/'))` (empty when there is
no slash, as `substring(0, -1)` is). -/
def lastIndexOfChar (ch : Char) : Str → Option Nat
  | [] => none
  | c :: rest =>
    match lastIndexOfChar ch rest with
    | some i => some (i + 1)
    | none => if c = ch then some 0 else none

def upToLastSlash (p : Str) : Str :=
  match lastIndexOfChar '/' p with
  | some i => p.take i
  | none => []

/-- `fetchSingleSkill` (skillsClient.ts). -/
def fetchSingleSkill (env : NetEnv) (now cfg : Nat) (c : Cache)
    (repo : SkillRepository) : FetchSt (List Skill) :=
  let skillName := basenameOr repo.path
  let r := fetchSkillMetadataRaw env now cfg c repo skillName repo.path
  match r.result with
  | some s => ⟨[s], r.cache, r.treeCalls, r.rawCalls⟩
  | none => ⟨[], r.cache, r.treeCalls, r.rawCalls⟩

/-- The filter of `fetchSkillsFromRepo`: blob entries under
`repo.path + "/"` ending in `"/SKILL.md"`. -/
def isSkillMdEntry (repoPath : Str) (item : GitTreeItem) : Bool :=
  decide (item.type = .blob) &&
    (repoPath ++ ("/").data).isPrefixOf item.path &&
    (("/SKILL.md").data).isSuffixOf item.path

/-- The per-candidate manifest fetches of `fetchSkillsFromRepo`,
threaded sequentially through the shared cache (the JS `Promise.all`
runs on one event loop; each fetch is atomic with respect to the
cache). -/
def fetchSkillsLoop (env : NetEnv) (now cfg : Nat) (repo : SkillRepository) :
    Cache → List Str → FetchSt (List (Option Skill))
  | c, [] => ⟨[], c, 0, 0⟩
  | c, p :: rest =>
    let skillName := basenameOr p
    let r := fetchSkillMetadataRaw env now cfg c repo skillName p
    let r' := fetchSkillsLoop env now cfg repo r.cache rest
    ⟨r.result :: r'.result, r'.cache,
      r.treeCalls + r'.treeCalls, r.rawCalls + r'.rawCalls⟩

/-- `fetchSkillsFromRepo` (skillsClient.ts). -/
def fetchSkillsFromRepo (env : NetEnv) (now cfg : Nat) (c : Cache)
    (repo : SkillRepository) : FetchSt (Except Str (List Skill)) :=
  if repo.singleSkill then
    let r := fetchSingleSkill env now cfg c repo
    ⟨.ok r.result, r.cache, r.treeCalls, r.rawCalls⟩
  else
    let t := fetchRepoTree env now cfg c repo.owner repo.repo repo.branch
    match t.result with
    | .error e => ⟨.error e, t.cache, t.treeCalls, t.rawCalls⟩
    | .ok data =>
      let skillMdFiles := data.tree.filter (isSkillMdEntry repo.path)
      let skillPaths := skillMdFiles.map (fun item => upToLastSlash item.path)
      let r := fetchSkillsLoop env now cfg repo t.cache skillPaths
      ⟨.ok (r.result.filterMap id), r.cache,
        t.treeCalls + r.treeCalls, t.rawCalls + r.rawCalls⟩

/-- The per-file raw fetches of `fetchSkillFiles`; the first failure
rejects the whole batch (`Promise.all`). -/
def fetchFilesLoop (env : NetEnv) (now cfg : Nat) (owner repoName branch skillPath : Str) :
    Cache → List GitTreeItem → FetchSt (Except Str (List (Str × Str)))
  | c, [] => ⟨.ok [], c, 0, 0⟩
  | c, item :: rest =>
    let r := fetchRawContent env now cfg c owner repoName item.path branch
    match r.result with
    | .error e => ⟨.error e, r.cache, r.treeCalls, r.rawCalls⟩
    | .ok content =>
      let rel := item.path.drop (skillPath.length + 1)
      let r' := fetchFilesLoop env now cfg owner repoName branch skillPath r.cache rest
      match r'.result with
      | .error e => ⟨.error e, r'.cache,
          r.treeCalls + r'.treeCalls, r.rawCalls + r'.rawCalls⟩
      | .ok files => ⟨.ok ((rel, content) :: files), r'.cache,
          r.treeCalls + r'.treeCalls, r.rawCalls + r'.rawCalls⟩

/-- `fetchSkillFiles` (skillsClient.ts): the full-tree listing for an
install, reusing the cached tree, then raw fetches for every blob under
the skill's directory. -/
def fetchSkillFiles (env : NetEnv) (now cfg : Nat) (c : Cache) (skill : Skill) :
    FetchSt (Except Str (List (Str × Str))) :=
  let t := fetchRepoTree env now cfg c skill.source.owner skill.source.repo
      skill.source.branch
  match t.result with
  | .error e => ⟨.error e, t.cache, t.treeCalls, t.rawCalls⟩
  | .ok data =>
    let skillFiles := data.tree.filter (fun item =>
      decide (item.type = .blob) &&
        (skill.skillPath ++ ("/").data).isPrefixOf item.path)
    let r := fetchFilesLoop env now cfg skill.source.owner skill.source.repo
        skill.source.branch skill.skillPath t.cache skillFiles
    ⟨r.result, r.cache, t.treeCalls + r.treeCalls, t.rawCalls + r.rawCalls⟩

/-- The settled-results loop of `fetchAllSkills` (lines 68–77): the
merged skill list and the error strings
`` `${repo.owner}/${repo.repo}: ${reason}` ``, accumulated in descriptor
order over the `Promise.allSettled` outcomes. -/
def aggregateSkills (results : List (SkillRepository × Except Str (List Skill))) :
    List Skill × List Str :=
  results.foldl
    (fun acc pr =>
      match pr.2 with
      | .ok skills => (acc.1 ++ skills, acc.2)
      | .error e =>
        (acc.1, acc.2 ++ [pr.1.owner ++ ("/").data ++ pr.1.repo ++ (": ").data ++ e]))
    ([], [])

def natToStr (n : Nat) : Str := (toString n).data

/-- The warning step of `fetchAllSkills` (lines 80–84): shown exactly
when some resolution failed and the merged list is empty. -/
def fetchAllWarning (allSkills : List Skill) (errors : List Str) : Option Str :=
  if errors.length > 0 ∧ allSkills.length = 0 then
    some (("Failed to fetch some skills: ").data ++ errors.headD [] ++
      (if errors.length > 1 then
        ((" (+").data ++ natToStr (errors.length - 1) ++ (" more)").data)
      else []))
  else none

/-- JS `opt || fallback` where `opt` is a possibly-absent string. -/
def jsOr (o : Option Str) (fallback : Str) : Str :=
  match o with
  | some v => if v ≠ [] then v else fallback
  | none => fallback

/-- The per-subdirectory step of `scanInstalledSkills` (installed-skills
scanner): the `InstalledSkill` built from the root location, the
directory name and the manifest text read from it. -/
def mkInstalledSkill (location name content : Str) : InstalledSkill :=
  let metadata := parseSkillMdMetadata content
  { name := jsOr metadata.name name
    description := jsOr metadata.description (("No description available").data)
    location := location ++ ("/").data ++ name }

/-- The formatted error string pushed by `fetchAllSkills` for a failed
descriptor. -/
def errString (repo : SkillRepository) (e : Str) : Str :=
  repo.owner ++ ("/").data ++ repo.repo ++ (": ").data ++ e

/-- The failures of a settled-outcome list, in order, as
(descriptor, reason) pairs. -/
def failuresOf (results : List (SkillRepository × Except Str (List Skill))) :
    List (SkillRepository × Str) :=
  results.filterMap (fun pr =>
    match pr.2 with
    | .ok _ => none
    | .error e => some (pr.1, e))

/-- A concrete environment for the C8 witness: the raw endpoint serves a
manifest without a `name` header. -/
def c8Env : NetEnv :=
  ⟨fun _ _ _ => .error [],
   fun _ _ _ _ => .ok ("---\ndescription: d\n---\nbody").data⟩

def c8Repo : SkillRepository :=
  ⟨("o").data, ("r").data, ("my-skill").data, ("m").data, true⟩

/-- The raw-content cache key of a skill directory's manifest. -/
def rawKeyOf (repo : SkillRepository) (p : Str) : Str :=
  rawKey repo.owner repo.repo (p ++ ("/SKILL.md").data) repo.branch

/-- The manifest text the environment serves for a skill directory
(empty on a failing fetch; used only under a success hypothesis). -/
def envContent (env : NetEnv) (repo : SkillRepository) (p : Str) : Str :=
  match env.raw repo.owner repo.repo (p ++ ("/SKILL.md").data) repo.branch with
  | .ok s => s
  | .error _ => []

/-- The `Skill` the resolver builds for a directory whose manifest fetch
succeeds. -/
def skillFor (env : NetEnv) (repo : SkillRepository) (p : Str) : Skill :=
  let content := envContent env repo p
  let parsed := parseSkillMd content
  { name := if parsed.metadata.name ≠ [] then parsed.metadata.name else basenameOr p
    description := if parsed.metadata.description ≠ [] then parsed.metadata.description
      else ("No description available").data
    license := parsed.metadata.license
    compatibility := parsed.metadata.compatibility
    source := repo
    skillPath := p
    fullContent := content
    bodyContent := parsed.body }

/-- Invariant tying the cache to the remote state: a cached manifest for
directory `p` is fresh at time `t` and equals what the environment
serves. -/
def CacheOkAt (env : NetEnv) (repo : SkillRepository) (cfg t : Nat) (c : Cache)
    (p : Str) : Prop :=
  lookupC c (rawKeyOf repo p) = none ∨
  ∃ content ts, lookupC c (rawKeyOf repo p) = some ⟨.raw content, ts⟩ ∧
    t - ts ≤ cfg * 1000 ∧
    env.raw repo.owner repo.repo (p ++ ("/SKILL.md").data) repo.branch = .ok content

/-- Concrete environments and descriptors for the C4 counterexample and
witness. -/
def c4Env : NetEnv :=
  ⟨fun _ _ _ => .ok { tree := [⟨("skills/a/SKILL.md").data, .blob⟩] },
   fun _ _ _ _ => .error ("404").data⟩

def c4Repo : SkillRepository :=
  ⟨("o").data, ("r").data, ("skills").data, ("m").data, false⟩

def c4WEnv : NetEnv :=
  ⟨fun _ _ _ => .ok { tree := [⟨("skills/a/SKILL.md").data, .blob⟩] },
   fun _ _ _ _ => .ok ("---\nname: A\n---\nbody").data⟩

def c4WRepo : SkillRepository :=
  ⟨("o").data, ("r").data, ("skills").data, ("m").data, false⟩

/-! ### Cache lemmas -/

theorem lookupC_setCache_self (c : Cache) (k : Str) (v : CachedVal) (t : Nat) :
    lookupC (setCache c k v t) k = some ⟨v, t⟩ := by
  simp [setCache, lookupC]

theorem lookupC_setCache_ne (c : Cache) (k k' : Str) (v : CachedVal) (t : Nat)
    (h : k ≠ k') : lookupC (setCache c k v t) k' = lookupC c k' := by
  simp [setCache, lookupC, h]

theorem lookupC_filter_ne (c : Cache) (k : Str) :
    lookupC (c.filter (fun p => decide (p.1 ≠ k))) k = none := by
  induction c with
  | nil => rfl
  | cons hd tl ih =>
    by_cases h : hd.1 = k
    · simpa [List.filter, h] using ih
    · simpa [List.filter, h, lookupC] using ih

theorem getFromCache_of_lookup_none (c : Cache) (now cfg : Nat) (k : Str)
    (h : lookupC c k = none) : getFromCache c now cfg k = (none, c) := by
  simp [getFromCache, h]

theorem getFromCache_fresh (c : Cache) (now cfg : Nat) (k : Str) (e : CacheEntry)
    (h : lookupC c k = some e) (hfresh : now - e.timestamp ≤ cfg * 1000) :
    getFromCache c now cfg k = (some e.data, c) := by
  simp [getFromCache, h, Nat.not_lt.mpr hfresh, show ¬ now - e.timestamp > cfg * 1000 by omega]

/-! ### Aggregator lemmas -/


theorem aggregateSkills_go (results : List (SkillRepository × Except Str (List Skill)))
    (acc : List Skill × List Str) :
    results.foldl
      (fun acc pr =>
        match pr.2 with
        | .ok skills => (acc.1 ++ skills, acc.2)
        | .error e => (acc.1, acc.2 ++ [errString pr.1 e]))
      acc =
    (acc.1 ++ (results.filterMap (fun pr => pr.2.toOption)).flatten,
     acc.2 ++ results.filterMap (fun pr =>
        match pr.2 with
        | .ok _ => none
        | .error e => some (errString pr.1 e))) := by
  induction results generalizing acc with
  | nil => simp
  | cons hd tl ih =>
    match h : hd.2 with
    | .ok skills => simp [List.foldl_cons, h, ih, Except.toOption]
    | .error e => simp [List.foldl_cons, h, ih, Except.toOption]

theorem aggregateSkills_eq (results : List (SkillRepository × Except Str (List Skill))) :
    aggregateSkills results =
      ((results.filterMap (fun pr => pr.2.toOption)).flatten,
       results.filterMap (fun pr =>
          match pr.2 with
          | .ok _ => none
          | .error e => some (errString pr.1 e))) := by
  have h := aggregateSkills_go results ([], [])
  simpa [aggregateSkills, errString] using h

/-! ### Claim C1 -/

/-- C1: the aggregation step of `fetchAllSkills` never fails as a whole
(its type is total); for every list of settled per-descriptor outcomes
the merged list is the concatenation, in descriptor order, of the skill
lists of exactly the succeeding descriptors, and a failing descriptor
contributes nothing. -/
theorem c1_aggregator_fault_isolation
    (results : List (SkillRepository × Except Str (List Skill))) :
    (aggregateSkills results).1 =
      (results.filterMap (fun pr => pr.2.toOption)).flatten := by
  rw [aggregateSkills_eq]

/-! ### Claim C2 -/


theorem aggregate_errors_eq (results : List (SkillRepository × Except Str (List Skill))) :
    (aggregateSkills results).2 = (failuresOf results).map (fun q => errString q.1 q.2) := by
  rw [aggregateSkills_eq]
  induction results with
  | nil => rfl
  | cons hd tl ih =>
    match h : hd.2 with
    | .ok skills => simpa [failuresOf, List.filterMap_cons, h] using ih
    | .error e => simpa [failuresOf, List.filterMap_cons, h] using ih

theorem failuresOf_ne_nil_iff (results : List (SkillRepository × Except Str (List Skill))) :
    failuresOf results ≠ [] ↔ ∃ pr ∈ results, ∃ e, pr.2 = .error e := by
  constructor
  · intro h
    match hl : failuresOf results with
    | [] => exact absurd hl h
    | q :: t =>
      have hq : q ∈ failuresOf results := by rw [hl]; exact List.mem_cons_self q t
      obtain ⟨pr, hpr, hmatch⟩ := List.mem_filterMap.mp hq
      refine ⟨pr, hpr, ?_⟩
      match h2 : pr.2 with
      | .ok s => rw [h2] at hmatch; simp at hmatch
      | .error e => exact ⟨e, rfl⟩
  · rintro ⟨pr, hpr, e, he⟩
    have : (pr.1, e) ∈ failuresOf results :=
      List.mem_filterMap.mpr ⟨pr, hpr, by rw [he]⟩
    exact List.ne_nil_of_mem this

theorem fetchAllWarning_ne_none_iff (sk : List Skill) (errors : List Str) :
    fetchAllWarning sk errors ≠ none ↔ errors ≠ [] ∧ sk = [] := by
  by_cases h : errors.length > 0 ∧ sk.length = 0
  · simp only [fetchAllWarning, if_pos h]
    have h1 : errors ≠ [] := by
      intro hc; rw [hc] at h; simp at h
    have h2 : sk = [] := List.length_eq_zero.mp h.2
    simp [h1, h2]
  · simp only [fetchAllWarning, if_neg h]
    constructor
    · intro hc; exact absurd rfl hc
    · rintro ⟨h1, h2⟩
      exact absurd ⟨List.length_pos.mpr h1, by rw [h2]; rfl⟩ h

theorem fetchAllWarning_cons (e : Str) (rest : List Str) :
    fetchAllWarning [] (e :: rest) =
      some (("Failed to fetch some skills: ").data ++ e ++
        (if 0 < rest.length then
          ((" (+").data ++ natToStr rest.length ++ (" more)").data)
        else [])) := by
  have hcond : (e :: rest).length > 0 ∧ ([] : List Skill).length = 0 := by simp
  simp only [fetchAllWarning, if_pos hcond, List.headD_cons]
  have : ((e :: rest).length > 1) = (0 < rest.length) := by
    simp [List.length_cons]
  rw [List.length_cons]
  by_cases h : 0 < rest.length
  · simp [Nat.succ_lt_succ_iff, h]
  · simp [Nat.succ_lt_succ_iff, h]

/-- C2 counterexample: a descriptor that succeeds with an empty skill
list does not suppress the warning — with one success (zero skills) and
one failure, `fetchAllSkills` still surfaces a warning, contradicting
the claim's clause that no warning is surfaced when at least one
descriptor succeeded. -/
theorem c2_counterexample :
    (∃ pr ∈ ([(⟨("a").data, ("b").data, ("p").data, ("m").data, false⟩,
        Except.ok ([] : List Skill)),
       (⟨("c").data, ("d").data, ("p").data, ("m").data, false⟩,
        Except.error ("boom").data)] :
        List (SkillRepository × Except Str (List Skill))),
      pr.2 = Except.ok []) ∧
    fetchAllWarning
      (aggregateSkills
        [(⟨("a").data, ("b").data, ("p").data, ("m").data, false⟩,
          Except.ok ([] : List Skill)),
         (⟨("c").data, ("d").data, ("p").data, ("m").data, false⟩,
          Except.error ("boom").data)]).1
      (aggregateSkills
        [(⟨("a").data, ("b").data, ("p").data, ("m").data, false⟩,
          Except.ok ([] : List Skill)),
         (⟨("c").data, ("d").data, ("p").data, ("m").data, false⟩,
          Except.error ("boom").data)]).2 ≠ none := by
  refine ⟨⟨_, List.mem_cons_self _ _, rfl⟩, ?_⟩
  decide

/-- C2 (amended): a warning is surfaced iff at least one descriptor's
resolution failed and the merged skill list is empty (a success
contributing zero skills does not suppress it); the surfaced warning
names the first failing repository and, when more than one failed, the
count of additional failures. -/
theorem c2_warning_condition
    (results : List (SkillRepository × Except Str (List Skill))) :
    (fetchAllWarning (aggregateSkills results).1 (aggregateSkills results).2 ≠ none ↔
      (∃ pr ∈ results, ∃ e, pr.2 = .error e) ∧ (aggregateSkills results).1 = []) ∧
    (∀ repo₀ e₀ rest,
      failuresOf results = (repo₀, e₀) :: rest →
      (aggregateSkills results).1 = [] →
      fetchAllWarning (aggregateSkills results).1 (aggregateSkills results).2 =
        some (("Failed to fetch some skills: ").data ++ errString repo₀ e₀ ++
          (if 0 < rest.length then
            ((" (+").data ++ natToStr rest.length ++ (" more)").data)
          else []))) := by
  constructor
  · rw [fetchAllWarning_ne_none_iff, aggregate_errors_eq, ← failuresOf_ne_nil_iff]
    simp
  · intro repo₀ e₀ rest hfail hempty
    rw [hempty, aggregate_errors_eq, hfail, List.map_cons, fetchAllWarning_cons]
    simp

/-- C2 witness: the amended theorem applied to concrete outcome lists:
one in which every descriptor fails, and one where two fail (checking
the "+1 more" count). -/
theorem c2_warning_condition_witness :
    fetchAllWarning
      (aggregateSkills
        [((⟨("c").data, ("d").data, ("p").data, ("m").data, false⟩ : SkillRepository),
          Except.error ("boom").data),
         ((⟨("e").data, ("f").data, ("p").data, ("m").data, false⟩ : SkillRepository),
          Except.error ("bust").data)]).1
      (aggregateSkills
        [((⟨("c").data, ("d").data, ("p").data, ("m").data, false⟩ : SkillRepository),
          Except.error ("boom").data),
         ((⟨("e").data, ("f").data, ("p").data, ("m").data, false⟩ : SkillRepository),
          Except.error ("bust").data)]).2 =
      some (("Failed to fetch some skills: c/d: boom (+1 more)").data) := by
  have h := (c2_warning_condition
    [((⟨("c").data, ("d").data, ("p").data, ("m").data, false⟩ : SkillRepository),
      Except.error ("boom").data),
     ((⟨("e").data, ("f").data, ("p").data, ("m").data, false⟩ : SkillRepository),
      Except.error ("bust").data)]).2
    ⟨("c").data, ("d").data, ("p").data, ("m").data, false⟩ ("boom").data
    [(⟨("e").data, ("f").data, ("p").data, ("m").data, false⟩, ("bust").data)]
    (by decide) (by decide)
  rw [h]
  decide

/-! ### Claim C3 -/

/-- C3: the cache behaves as a time-boxed option.  An entry stored at
time `T` under timeout `cfg` seconds is returned unchanged (store
untouched) by any get strictly before `T + cfg·1000` ms; a get strictly
after that instant returns absent and deletes the entry, so a
subsequent get (at any time) also returns absent; a key never stored
reads absent. -/
theorem c3_cache_expiry (c : Cache) (k : Str) (v : CachedVal) (T now cfg : Nat) :
    (now < T + cfg * 1000 →
      getFromCache (setCache c k v T) now cfg k = (some v, setCache c k v T)) ∧
    (now > T + cfg * 1000 →
      (getFromCache (setCache c k v T) now cfg k).1 = none ∧
      lookupC (getFromCache (setCache c k v T) now cfg k).2 k = none ∧
      ∀ now', (getFromCache (getFromCache (setCache c k v T) now cfg k).2 now' cfg k).1 = none) ∧
    (lookupC c k = none → getFromCache c now cfg k = (none, c)) := by
  refine ⟨?_, ?_, ?_⟩
  · intro h
    exact getFromCache_fresh _ _ _ _ _ (lookupC_setCache_self c k v T)
      (by show now - T ≤ cfg * 1000; omega)
  · intro h
    have hexp : now - (⟨v, T⟩ : CacheEntry).timestamp > cfg * 1000 := by
      show now - T > cfg * 1000
      omega
    have heq : getFromCache (setCache c k v T) now cfg k =
        (none, (setCache c k v T).filter (fun p => decide (p.1 ≠ k))) := by
      simp [getFromCache, lookupC_setCache_self, hexp]
    refine ⟨by rw [heq], ?_, ?_⟩
    · rw [heq]
      exact lookupC_filter_ne _ _
    · intro now'
      rw [heq]
      rw [getFromCache_of_lookup_none _ _ _ _ (lookupC_filter_ne _ _)]
  · exact getFromCache_of_lookup_none c now cfg k

/-- C3 witness: a fresh get returns the stored value; an expired get
returns absent. -/
theorem c3_cache_expiry_witness :
    getFromCache (setCache [] ("k").data (.raw ("v").data) 0) 500 1 ("k").data =
      (some (.raw ("v").data), setCache [] ("k").data (.raw ("v").data) 0) ∧
    (getFromCache (setCache [] ("k").data (.raw ("v").data) 0) 1500 1 ("k").data).1 =
      none :=
  ⟨(c3_cache_expiry [] _ _ 0 500 1).1 (by omega),
   ((c3_cache_expiry [] _ _ 0 1500 1).2.1 (by omega)).1⟩

/-! ### Claim C5 -/

theorem lastIndexOfChar_of_not_mem (ch : Char) (s : Str) (h : ch ∉ s) :
    lastIndexOfChar ch s = none := by
  induction s with
  | nil => rfl
  | cons c rest ih =>
    have hc : c ≠ ch := fun hc => h (hc ▸ List.mem_cons_self c rest)
    have hr : ch ∉ rest := fun hr => h (List.mem_cons_of_mem c hr)
    simp [lastIndexOfChar, ih hr, hc]

theorem lastIndexOfChar_append_cons (ch : Char) (xs ys : Str) (h : ch ∉ ys) :
    lastIndexOfChar ch (xs ++ ch :: ys) = some xs.length := by
  induction xs with
  | nil => simp [lastIndexOfChar, lastIndexOfChar_of_not_mem ch ys h]
  | cons x xs ih => simp [lastIndexOfChar, ih]

theorem upToLastSlash_append_manifest (q : Str) :
    upToLastSlash (q ++ ('/' :: ("SKILL.md").data)) = q := by
  have hns : '/' ∉ ("SKILL.md").data := by decide
  simp [upToLastSlash, lastIndexOfChar_append_cons '/' q _ hns, List.take_left]

/-- C5 counterexample: the claim selects entries whose path merely ends
with `SKILL.md`, but the code requires the suffix `/SKILL.md`: the blob
`skills/xSKILL.md` under `path = "skills"` satisfies every condition of
the claim yet is not selected. -/
theorem c5_counterexample :
    isSkillMdEntry ("skills").data ⟨("skills/xSKILL.md").data, .blob⟩ = false ∧
    (⟨("skills/xSKILL.md").data, .blob⟩ : GitTreeItem).type = .blob ∧
    (("skills").data ++ ("/").data).isPrefixOf ("skills/xSKILL.md").data = true ∧
    (("SKILL.md").data).isSuffixOf ("skills/xSKILL.md").data = true := by
  refine ⟨by decide, rfl, by decide, by decide⟩

/-- C5 (amended): for every listing and non-`singleSkill` path, the
resolver selects exactly the blob entries whose path starts with
`descriptor.path + "/"` and ends with `"/SKILL.md"` (the manifest
filename as a whole path segment); each selected entry's skill
directory is its path with the trailing `/SKILL.md` removed, and the
fallback name is that directory's basename; on the claim's concrete
listing, exactly the skills `a` and `b` under `skills/` result. -/
theorem c5_directory_prefix_filtering (treeItems : List GitTreeItem) (rp : Str) :
    (∀ item, item ∈ treeItems.filter (isSkillMdEntry rp) ↔
      item ∈ treeItems ∧ item.type = .blob ∧
      (rp ++ ("/").data) <+: item.path ∧ ("/SKILL.md").data <:+ item.path) ∧
    (∀ item, isSkillMdEntry rp item = true →
      upToLastSlash item.path ++ ("/SKILL.md").data = item.path) ∧
    (([⟨("skills/a/SKILL.md").data, .blob⟩,
       ⟨("skills/b/SKILL.md").data, .blob⟩,
       ⟨("other/SKILL.md").data, .blob⟩] :
        List GitTreeItem).filter (isSkillMdEntry (("skills").data))).map
      (fun i => (upToLastSlash i.path, basenameOr (upToLastSlash i.path))) =
      [(("skills/a").data, ("a").data), (("skills/b").data, ("b").data)] := by
  refine ⟨?_, ?_, by decide⟩
  · intro item
    rw [List.mem_filter]
    simp only [isSkillMdEntry, Bool.and_eq_true, decide_eq_true_eq,
      List.isPrefixOf_iff_prefix, List.isSuffixOf_iff_suffix]
    tauto
  · intro item h
    simp only [isSkillMdEntry, Bool.and_eq_true, decide_eq_true_eq,
      List.isPrefixOf_iff_prefix, List.isSuffixOf_iff_suffix] at h
    obtain ⟨⟨hblob, hpre⟩, q, hq⟩ := h
    have hsl : ("/SKILL.md").data = '/' :: ("SKILL.md").data := rfl
    rw [← hq, hsl, upToLastSlash_append_manifest]

/-- C5 witness: the structural parts applied to a concrete entry. -/
theorem c5_directory_prefix_filtering_witness :
    upToLastSlash (("skills/a/SKILL.md").data) ++ ("/SKILL.md").data =
      ("skills/a/SKILL.md").data :=
  (c5_directory_prefix_filtering [] (("skills").data)).2.1
    ⟨("skills/a/SKILL.md").data, .blob⟩ (by decide)

/-! ### Claim C7 -/

theorem treeKey_norm (o r b : Str) :
    treeKey o r b = ("tree:").data ++ (o ++ '/' :: (r ++ '@' :: b)) := by
  simp only [treeKey, List.append_assoc, List.singleton_append, List.cons_append,
    List.nil_append]

theorem rawKey_norm (o r p b : Str) :
    rawKey o r p b = ("raw:").data ++ (o ++ '/' :: (r ++ '/' :: (p ++ '@' :: b))) := by
  simp only [rawKey, List.append_assoc, List.singleton_append, List.cons_append,
    List.nil_append]

/-- Splitting a string at the first occurrence of a separator character
is unambiguous. -/
theorem sep_split {sep : Char} (a : Str) {b : Str} (c : Str) {d : Str}
    (ha : sep ∉ a) (hc : sep ∉ c) (h : a ++ sep :: b = c ++ sep :: d) :
    a = c ∧ b = d := by
  induction a generalizing c with
  | nil =>
    match c with
    | [] => simpa using h
    | x :: xs =>
      simp only [List.nil_append, List.cons_append, List.cons.injEq] at h
      cases h.1
      exact absurd (List.mem_cons_self _ _) hc
  | cons y ys ih =>
    match c with
    | [] =>
      simp only [List.cons_append, List.nil_append, List.cons.injEq] at h
      cases h.1
      exact absurd (List.mem_cons_self _ _) ha
    | x :: xs =>
      simp only [List.cons_append, List.cons.injEq] at h
      have ha' : sep ∉ ys := fun hm => ha (List.mem_cons_of_mem _ hm)
      have hc' : sep ∉ xs := fun hm => hc (List.mem_cons_of_mem _ hm)
      obtain ⟨h1, h2⟩ := h
      obtain ⟨e1, e2⟩ := ih xs ha' hc' h2
      exact ⟨by rw [h1, e1], e2⟩

/-- C7 counterexample: the key constructors are not injective on
arbitrary addressing tuples — a repository name containing `@` collides
with a branch containing `@`: `(o, r@x, b)` and `(o, r, x@b)` differ in
the repo component yet produce the same listing key. -/
theorem c7_counterexample :
    treeKey ("o").data ("r@x").data ("b").data =
      treeKey ("o").data ("r").data ("x@b").data ∧
    ("r@x").data ≠ ("r").data := by
  refine ⟨by decide, by decide⟩

/-- C7 (amended): the key construction discriminates resource kind and
is injective on addressing tuples whose owner and repo contain neither
`/` nor `@` and whose path contains no `@` (branches are
unconstrained): distinct tuples of the same kind give distinct keys,
and a listing key never equals a raw-file key. -/
theorem c7_key_injectivity (o r b p o' r' b' p' : Str)
    (ho : '/' ∉ o ∧ '@' ∉ o) (hr : '/' ∉ r ∧ '@' ∉ r) (hp : '@' ∉ p)
    (ho' : '/' ∉ o' ∧ '@' ∉ o') (hr' : '/' ∉ r' ∧ '@' ∉ r') (hp' : '@' ∉ p') :
    (treeKey o r b = treeKey o' r' b' → o = o' ∧ r = r' ∧ b = b') ∧
    (rawKey o r p b = rawKey o' r' p' b' → o = o' ∧ r = r' ∧ p = p' ∧ b = b') ∧
    treeKey o r b ≠ rawKey o' r' p' b' := by
  refine ⟨?_, ?_, ?_⟩
  · intro h
    rw [treeKey_norm, treeKey_norm] at h
    have h1 := List.append_cancel_left h
    have hato : '@' ∉ o ++ '/' :: r := by
      intro hm
      rcases List.mem_append.mp hm with hm | hm
      · exact ho.2 hm
      · rcases List.mem_cons.mp hm with hm | hm
        · exact absurd hm (by decide)
        · exact hr.2 hm
    have hato' : '@' ∉ o' ++ '/' :: r' := by
      intro hm
      rcases List.mem_append.mp hm with hm | hm
      · exact ho'.2 hm
      · rcases List.mem_cons.mp hm with hm | hm
        · exact absurd hm (by decide)
        · exact hr'.2 hm
    rw [show o ++ '/' :: (r ++ '@' :: b) = (o ++ '/' :: r) ++ '@' :: b by
        simp [List.append_assoc],
      show o' ++ '/' :: (r' ++ '@' :: b') = (o' ++ '/' :: r') ++ '@' :: b' by
        simp [List.append_assoc]] at h1
    obtain ⟨h2, hb⟩ := sep_split _ _ hato hato' h1
    obtain ⟨hoo, hrr⟩ := sep_split o o' ho.1 ho'.1 h2
    exact ⟨hoo, hrr, hb⟩
  · intro h
    rw [rawKey_norm, rawKey_norm] at h
    have h1 := List.append_cancel_left h
    have hat : '@' ∉ o ++ '/' :: (r ++ '/' :: p) := by
      intro hm
      rcases List.mem_append.mp hm with hm | hm
      · exact ho.2 hm
      · rcases List.mem_cons.mp hm with hm | hm
        · exact absurd hm (by decide)
        · rcases List.mem_append.mp hm with hm | hm
          · exact hr.2 hm
          · rcases List.mem_cons.mp hm with hm | hm
            · exact absurd hm (by decide)
            · exact hp hm
    have hat' : '@' ∉ o' ++ '/' :: (r' ++ '/' :: p') := by
      intro hm
      rcases List.mem_append.mp hm with hm | hm
      · exact ho'.2 hm
      · rcases List.mem_cons.mp hm with hm | hm
        · exact absurd hm (by decide)
        · rcases List.mem_append.mp hm with hm | hm
          · exact hr'.2 hm
          · rcases List.mem_cons.mp hm with hm | hm
            · exact absurd hm (by decide)
            · exact hp' hm
    rw [show o ++ '/' :: (r ++ '/' :: (p ++ '@' :: b)) =
          (o ++ '/' :: (r ++ '/' :: p)) ++ '@' :: b by simp [List.append_assoc],
      show o' ++ '/' :: (r' ++ '/' :: (p' ++ '@' :: b')) =
          (o' ++ '/' :: (r' ++ '/' :: p')) ++ '@' :: b' by simp [List.append_assoc]] at h1
    obtain ⟨h2, hb⟩ := sep_split _ _ hat hat' h1
    obtain ⟨hoo, h3⟩ := sep_split o o' ho.1 ho'.1 h2
    obtain ⟨hrr, hpp⟩ := sep_split r r' hr.1 hr'.1 h3
    exact ⟨hoo, hrr, hpp, hb⟩
  · intro h
    have h1 : (treeKey o r b).head? = some 't' := rfl
    have h2 : (rawKey o' r' p' b').head? = some 'r' := rfl
    rw [h] at h1
    exact absurd (h1.symm.trans h2) (by decide)

/-- C7 witness: the amended theorem at concrete separator-free
components. -/
theorem c7_key_injectivity_witness :
    treeKey ("o").data ("r").data ("b").data ≠
      rawKey ("o").data ("r").data ("p").data ("b").data :=
  (c7_key_injectivity ("o").data ("r").data ("b").data ("p").data
    ("o").data ("r").data ("b").data ("p").data
    (by decide) (by decide) (by decide) (by decide) (by decide) (by decide)).2.2

/-! ### Claim C8 -/

/-- C8: for every descriptor with `singleSkill` set, resolution returns
`ok` with a list of length at most one (errors are swallowed, never
propagated); if the manifest fetch fails the list is empty; if it
succeeds, the single skill's name is the manifest's parsed name when
non-empty and otherwise the basename of `descriptor.path`. -/
theorem c8_single_skill (env : NetEnv) (now cfg : Nat) (c : Cache)
    (repo : SkillRepository) (hs : repo.singleSkill = true) :
    ∃ l, (fetchSkillsFromRepo env now cfg c repo).result = .ok l ∧ l.length ≤ 1 ∧
      ((fetchRawContent env now cfg c repo.owner repo.repo
          (repo.path ++ ("/SKILL.md").data) repo.branch).result.isOk = false → l = []) ∧
      (∀ content,
        (fetchRawContent env now cfg c repo.owner repo.repo
          (repo.path ++ ("/SKILL.md").data) repo.branch).result = .ok content →
        ∃ s, l = [s] ∧
          s.name = (if (parseSkillMd content).metadata.name ≠ []
                    then (parseSkillMd content).metadata.name
                    else basenameOr repo.path)) := by
  match hres : (fetchRawContent env now cfg c repo.owner repo.repo
      (repo.path ++ ("/SKILL.md").data) repo.branch).result with
  | .error e =>
    refine ⟨[], ?_, by simp, fun _ => rfl, ?_⟩
    · simp [fetchSkillsFromRepo, hs, fetchSingleSkill, fetchSkillMetadataRaw, hres]
    · intro content hcontent
      exact absurd hcontent (by simp)
  | .ok content0 =>
    refine ⟨[{ name := if (parseSkillMd content0).metadata.name ≠ []
                 then (parseSkillMd content0).metadata.name else basenameOr repo.path,
               description := if (parseSkillMd content0).metadata.description ≠ []
                 then (parseSkillMd content0).metadata.description
                 else ("No description available").data,
               license := (parseSkillMd content0).metadata.license,
               compatibility := (parseSkillMd content0).metadata.compatibility,
               source := repo, skillPath := repo.path,
               fullContent := content0, bodyContent := (parseSkillMd content0).body }],
      ?_, by simp, ?_, ?_⟩
    · simp [fetchSkillsFromRepo, hs, fetchSingleSkill, fetchSkillMetadataRaw, hres]
    · intro hfalse
      simp [Except.isOk, Except.toBool] at hfalse
    · intro content hcontent
      have heq : content = content0 := by
        injection hcontent.symm
      subst heq
      exact ⟨_, rfl, rfl⟩


/-- C8 witness: a single-skill descriptor with `path = "my-skill"` and a
nameless manifest yields exactly one skill named `my-skill`. -/
theorem c8_single_skill_witness :
    (fetchSkillsFromRepo c8Env 0 1 [] c8Repo).result.map (fun l => l.map Skill.name) =
      .ok [("my-skill").data] := by
  obtain ⟨l, hok, hlen, hfail, hsingle⟩ := c8_single_skill c8Env 0 1 [] c8Repo rfl
  obtain ⟨s, hl, hname⟩ :=
    hsingle ("---\ndescription: d\n---\nbody").data (by rfl)
  rw [hok, hl]
  simp only [Except.map, List.map]
  rw [hname]
  exact congrArg Except.ok (by decide)

/-! ### Claim C10 -/

/-- C10: every `Skill` produced by the resolver carries a non-empty
description — when the parsed description is empty (including headerless
manifests) the skill's description is the literal
`No description available`; the installed-set scan applies the same
non-empty default to `InstalledSkill` descriptions. -/
theorem c10_description_default (env : NetEnv) (now cfg : Nat) (c : Cache)
    (repo : SkillRepository) (skillName skillPath : Str) :
    (∀ s, (fetchSkillMetadataRaw env now cfg c repo skillName skillPath).result = some s →
      s.description ≠ [] ∧
      (∀ content,
        (fetchRawContent env now cfg c repo.owner repo.repo
          (skillPath ++ ("/SKILL.md").data) repo.branch).result = .ok content →
        (parseSkillMd content).metadata.description = [] →
        s.description = ("No description available").data)) ∧
    (∀ location dirName content,
      (mkInstalledSkill location dirName content).description ≠ [] ∧
      ((parseSkillMdMetadata content).description = none ∨
          (parseSkillMdMetadata content).description = some [] →
        (mkInstalledSkill location dirName content).description =
          ("No description available").data)) := by
  constructor
  · intro s hs
    match hres : (fetchRawContent env now cfg c repo.owner repo.repo
        (skillPath ++ ("/SKILL.md").data) repo.branch).result with
    | .error e =>
      rw [show (fetchSkillMetadataRaw env now cfg c repo skillName skillPath).result = none by
        simp [fetchSkillMetadataRaw, hres]] at hs
      exact absurd hs (by simp)
    | .ok content0 =>
      rw [show (fetchSkillMetadataRaw env now cfg c repo skillName skillPath).result =
          some { name := if (parseSkillMd content0).metadata.name ≠ []
                   then (parseSkillMd content0).metadata.name else skillName,
                 description := if (parseSkillMd content0).metadata.description ≠ []
                   then (parseSkillMd content0).metadata.description
                   else ("No description available").data,
                 license := (parseSkillMd content0).metadata.license,
                 compatibility := (parseSkillMd content0).metadata.compatibility,
                 source := repo, skillPath := skillPath,
                 fullContent := content0, bodyContent := (parseSkillMd content0).body } by
        simp [fetchSkillMetadataRaw, hres]] at hs
      obtain rfl : s = _ := Option.some_injective _ hs.symm
      constructor
      · by_cases hd : (parseSkillMd content0).metadata.description ≠ []
        · simp [hd]
        · simp only [hd, if_false]
          decide
      · intro content hcontent hdesc
        obtain rfl : content0 = content := by injection hcontent
        simp [hdesc]
  · intro location dirName content
    constructor
    · simp only [mkInstalledSkill, jsOr]
      match hmeta : (parseSkillMdMetadata content).description with
      | none => decide
      | some v =>
        by_cases hv : v ≠ []
        · simp [hv]
        · simp only [hv, if_false]
          decide
    · intro hcase
      rcases hcase with hnone | hsome
      · simp [mkInstalledSkill, jsOr, hnone]
      · simp [mkInstalledSkill, jsOr, hsome]

/-- C10 witness: a manifest with a header lacking `description` produces
the default description both through the resolver and through the
installed-set scanner. -/
theorem c10_description_default_witness :
    (fetchSkillMetadataRaw c8Env 0 1 [] c8Repo ("n").data ("p").data).result.map
        Skill.description ≠ some [] ∧
    (mkInstalledSkill ("loc").data ("dir").data ("---\nname: N\n---\n").data).description =
      ("No description available").data := by
  constructor
  · match hres : (fetchSkillMetadataRaw c8Env 0 1 [] c8Repo ("n").data ("p").data).result with
    | none => simp
    | some s =>
      have h := ((c10_description_default c8Env 0 1 [] c8Repo ("n").data ("p").data).1
        s hres).1
      simpa using h
  · exact ((c10_description_default c8Env 0 1 [] c8Repo [] []).2
      ("loc").data ("dir").data ("---\nname: N\n---\n").data).2 (Or.inl (by decide))

/-! ### Parser structure lemmas (for C9 and C6) -/

theorem drop_takeWhile_length (p : Char → Bool) (l : Str) :
    l.drop (l.takeWhile p).length = l.dropWhile p := by
  induction l with
  | nil => rfl
  | cons c t ih =>
    by_cases h : p c
    · simp [List.takeWhile, List.dropWhile, h, ih]
    · simp [List.takeWhile, List.dropWhile, h]

theorem keyTailAux_sound (fuel : Nat) :
    ∀ (s kp r : Str), keyTailAux fuel s = some (kp, r) →
      s = kp ++ ':' :: r ∧ ∀ ch ∈ kp, wordChar ch = true ∨ ch = '-' := by
  induction fuel with
  | zero =>
    intro s kp r h
    match s with
    | [] => simp [keyTailAux] at h
    | c :: rest =>
      by_cases hc : c = ':'
      · subst hc
        simp [keyTailAux] at h
        obtain ⟨rfl, rfl⟩ := h
        exact ⟨rfl, by simp⟩
      · simp [keyTailAux, hc] at h
  | succ fuel ih =>
    intro s kp r h
    match s with
    | [] => simp [keyTailAux] at h
    | c :: rest =>
      by_cases hc : c = ':'
      · subst hc
        simp [keyTailAux] at h
        obtain ⟨rfl, rfl⟩ := h
        exact ⟨rfl, by simp⟩
      · by_cases hd : c = '-'
        · subst hd
          simp only [keyTailAux, if_neg (by decide : ¬(('-' : Char) = ':')),
            if_pos rfl] at h
          by_cases hw : (rest.takeWhile wordChar).isEmpty
          · simp [hw] at h
          · simp only [hw, if_false] at h
            match hrec : keyTailAux fuel (rest.drop (rest.takeWhile wordChar).length) with
            | none => rw [hrec] at h; simp at h
            | some (kp1, r1) =>
              rw [hrec] at h
              simp only [Option.some.injEq, Prod.mk.injEq] at h
              obtain ⟨hkp, hr⟩ := h
              obtain ⟨heq, hch⟩ := ih _ _ _ hrec
              rw [drop_takeWhile_length] at heq
              constructor
              · conv_lhs => rw [← List.takeWhile_append_dropWhile wordChar rest]
                rw [heq]
                simp
              · intro ch hch2
                rcases List.mem_cons.mp hch2 with rfl | hch2
                · exact Or.inr rfl
                · rcases List.mem_append.mp hch2 with hm | hm
                  · exact Or.inl (List.mem_takeWhile_imp hm)
                  · exact hch ch hm
        · simp [keyTailAux, hc, hd] at h

theorem keyMatch_sound (l k r : Str) (h : keyMatch l = some (k, r)) :
    l = k ++ ':' :: r ∧ k ≠ [] ∧ ∀ ch ∈ k, wordChar ch = true ∨ ch = '-' := by
  unfold keyMatch at h
  by_cases hw : (l.takeWhile wordChar).isEmpty
  · simp [hw] at h
  · simp only [hw, if_false, keyTail] at h
    match hrec : keyTailAux (l.drop (l.takeWhile wordChar).length).length
        (l.drop (l.takeWhile wordChar).length) with
    | none => rw [hrec] at h; simp at h
    | some (kp1, r1) =>
      rw [hrec] at h
      simp only [Option.some.injEq, Prod.mk.injEq] at h
      obtain ⟨hkp, hr⟩ := h
      obtain ⟨heq, hch⟩ := keyTailAux_sound _ _ _ _ hrec
      rw [drop_takeWhile_length] at heq
      refine ⟨?_, ?_, ?_⟩
      · conv_lhs => rw [← List.takeWhile_append_dropWhile wordChar l]
        rw [heq]
        simp
      · intro hnil
        rw [List.isEmpty_iff] at hw
        exact hw (by simpa using congrArg (List.take (l.takeWhile wordChar).length) hnil)
      · intro ch hch2
        rcases List.mem_append.mp hch2 with hm | hm
        · exact Or.inl (List.mem_takeWhile_imp hm)
        · exact hch ch hm


theorem joinWith_cons (sep : Char) (l : Str) (ls : List Str) (h : ls ≠ []) :
    joinWith sep (l :: ls) = l ++ sep :: joinWith sep ls := by
  match ls with
  | [] => exact absurd rfl h
  | l2 :: ls' => rfl

theorem joinWith_cons_ex (sep : Char) (l : Str) (ls : List Str) :
    ∃ ex, joinWith sep (l :: ls) = l ++ ex := by
  match ls with
  | [] => exact ⟨[], by simp [joinWith]⟩
  | l2 :: ls' => exact ⟨sep :: joinWith sep (l2 :: ls'), rfl⟩

theorem splitOnChar_no_sep (c : Char) (l : Str) (h : c ∉ l) :
    splitOnChar c l = [l] := by
  induction l with
  | nil => rfl
  | cons a t ih =>
    have ha : a ≠ c := fun hc => h (hc ▸ List.mem_cons_self a t)
    have ht : c ∉ t := fun hm => h (List.mem_cons_of_mem a hm)
    simp [splitOnChar, ha, ih ht]

theorem splitOnChar_append_sep (c : Char) (l s : Str) (h : c ∉ l) :
    splitOnChar c (l ++ c :: s) = l :: splitOnChar c s := by
  induction l with
  | nil => simp [splitOnChar]
  | cons a t ih =>
    have ha : a ≠ c := fun hc => h (hc ▸ List.mem_cons_self a t)
    have ht : c ∉ t := fun hm => h (List.mem_cons_of_mem a hm)
    simp [splitOnChar, ha, ih ht]

theorem splitOnChar_joinWith (c : Char) (ls : List Str) (hne : ls ≠ [])
    (h : ∀ l ∈ ls, c ∉ l) :
    splitOnChar c (joinWith c ls) = ls := by
  induction ls with
  | nil => exact absurd rfl hne
  | cons l ls ih =>
    match ls with
    | [] => exact splitOnChar_no_sep c l (h l (List.mem_cons_self _ _))
    | l2 :: ls' =>
      rw [joinWith_cons c l _ (by simp)]
      rw [splitOnChar_append_sep c l _ (h l (List.mem_cons_self _ _))]
      rw [ih (by simp) (fun x hx => h x (List.mem_cons_of_mem _ hx))]

theorem splitAtMarker_skip_line (mr : Str) (l s : Str) (hl : '\n' ∉ l) :
    splitAtMarker ('\n' :: mr) (l ++ s) =
      (splitAtMarker ('\n' :: mr) s).map (fun p => (l ++ p.1, p.2)) := by
  induction l with
  | nil =>
    simp only [List.nil_append]
    match splitAtMarker ('\n' :: mr) s with
    | none => rfl
    | some (a, b) => rfl
  | cons a t ih =>
    have ha : a ≠ '\n' := fun hc => hl (hc ▸ List.mem_cons_self a t)
    have ht : '\n' ∉ t := fun hm => hl (List.mem_cons_of_mem a hm)
    rw [List.cons_append, splitAtMarker]
    have hpre : (('\n' :: mr).isPrefixOf (a :: (t ++ s))) = false := by
      simp [List.isPrefixOf, Ne.symm ha]
    rw [hpre]
    simp only [Bool.false_eq_true, if_false, ih ht]
    match splitAtMarker ('\n' :: mr) s with
    | none => rfl
    | some (a2, b2) => rfl

theorem splitAtMarker_skip_nl (mr : Str) (c : Char) (s' : Str) (hc : c ≠ '-') :
    splitAtMarker ('\n' :: '-' :: mr) ('\n' :: c :: s') =
      (splitAtMarker ('\n' :: '-' :: mr) (c :: s')).map
        (fun p => ('\n' :: p.1, p.2)) := by
  rw [splitAtMarker]
  have hpre : (('\n' :: '-' :: mr).isPrefixOf ('\n' :: c :: s')) = false := by
    simp [List.isPrefixOf, Ne.symm hc]
  rw [hpre]
  simp only [Bool.false_eq_true, if_false]
  match splitAtMarker ('\n' :: '-' :: mr) (c :: s') with
  | none => rfl
  | some (a, b) => rfl

theorem splitAtMarker_self (marker z : Str) (hm : marker ≠ []) :
    splitAtMarker marker (marker ++ z) = some ([], z) := by
  match marker with
  | [] => exact absurd rfl hm
  | m0 :: mr =>
    rw [List.cons_append, splitAtMarker]
    have hpre : ((m0 :: mr).isPrefixOf (m0 :: (mr ++ z))) = true := by
      rw [List.isPrefixOf_iff_prefix]
      exact List.prefix_append _ _
    rw [hpre]
    simp only [if_true]
    rw [show (m0 :: (mr ++ z)) = (m0 :: mr) ++ z from rfl]
    rw [show (m0 :: mr).length = (m0 :: mr).length from rfl, List.drop_left]

theorem marker_through_lines (mr : Str) (ls : List Str) (z : Str) (hne : ls ≠ [])
    (h : ∀ l ∈ ls, l ≠ [] ∧ '\n' ∉ l ∧ l.head? ≠ some '-') :
    splitAtMarker ('\n' :: '-' :: mr) (joinLines ls ++ ('\n' :: '-' :: mr) ++ z) =
      some (joinLines ls, z) := by
  induction ls with
  | nil => exact absurd rfl hne
  | cons l ls ih =>
    match ls with
    | [] =>
      show splitAtMarker _ (joinWith '\n' [l] ++ _ ++ _) = _
      have h1 := h l (List.mem_cons_self _ _)
      rw [show joinWith '\n' [l] = l from rfl, List.append_assoc,
        splitAtMarker_skip_line ('-' :: mr) l _ h1.2.1,
        splitAtMarker_self _ z (by simp)]
      simp [joinLines, joinWith]
    | l2 :: ls' =>
      have h1 := h l (List.mem_cons_self _ _)
      have h2 := h l2 (List.mem_cons_of_mem _ (List.mem_cons_self _ _))
      show splitAtMarker _ (joinWith '\n' (l :: l2 :: ls') ++ _ ++ _) = _
      rw [joinWith_cons '\n' l _ (by simp)]
      rw [show (l ++ '\n' :: joinWith '\n' (l2 :: ls')) ++ ('\n' :: '-' :: mr) ++ z =
          l ++ ('\n' :: (joinWith '\n' (l2 :: ls') ++ ('\n' :: '-' :: mr) ++ z)) by
        simp [List.append_assoc]]
      rw [splitAtMarker_skip_line ('-' :: mr) l _ h1.2.1]
      obtain ⟨ex, hex⟩ := joinWith_cons_ex '\n' l2 ls'
      match hl2 : l2 with
      | [] => exact absurd rfl h2.1
      | c2 :: t2 =>
        have hc2 : c2 ≠ '-' := by
          intro hcc
          exact h2.2.2 (by rw [hcc]; rfl)
        rw [show joinWith '\n' ((c2 :: t2) :: ls') ++ ('\n' :: '-' :: mr) ++ z =
            c2 :: (t2 ++ ex ++ ('\n' :: '-' :: mr) ++ z) by
          rw [hex]; simp [List.append_assoc]]
        rw [splitAtMarker_skip_nl mr c2 _ hc2]
        rw [show c2 :: (t2 ++ ex ++ ('\n' :: '-' :: mr) ++ z) =
            joinWith '\n' ((c2 :: t2) :: ls') ++ ('\n' :: '-' :: mr) ++ z by
          rw [hex]; simp [List.append_assoc]]
        have ih2 := ih (by simp) (fun x hx => h x (List.mem_cons_of_mem _ hx))
        rw [show joinLines ((c2 :: t2) :: ls') = joinWith '\n' ((c2 :: t2) :: ls') from rfl] at ih2
        rw [ih2]
        rfl


theorem parseSkillMd_of_lines (ls : List Str) (body : Str) (hne : ls ≠ [])
    (h : ∀ l ∈ ls, l ≠ [] ∧ '\n' ∉ l ∧ l.head? ≠ some '-') :
    parseSkillMd (("---\n").data ++ joinLines ls ++ ("\n---\n").data ++ body) =
      ⟨parseYamlFrontmatter (joinLines ls), body⟩ := by
  have hpre : (("---\n").data.isPrefixOf
      (("---\n").data ++ (joinLines ls ++ ("\n---\n").data ++ body))) = true := by
    rw [List.isPrefixOf_iff_prefix]
    exact List.prefix_append _ _
  rw [show ("---\n").data ++ joinLines ls ++ ("\n---\n").data ++ body =
      ("---\n").data ++ (joinLines ls ++ ("\n---\n").data ++ body) by
    simp [List.append_assoc]]
  rw [parseSkillMd, hpre]
  simp only [if_true]
  rw [show (4 : Nat) = ("---\n").data.length from rfl, List.drop_left]
  rw [show joinLines ls ++ ("\n---\n").data ++ body =
      joinLines ls ++ ('\n' :: '-' :: ("--\n").data) ++ body from rfl]
  rw [marker_through_lines ("--\n").data ls body hne h]

theorem parseSkillMdMetadata_of_lines (ls : List Str) (body : Str) (hne : ls ≠ [])
    (h : ∀ l ∈ ls, l ≠ [] ∧ '\n' ∉ l ∧ l.head? ≠ some '-') :
    parseSkillMdMetadata (("---\n").data ++ joinLines ls ++ ("\n---\n").data ++ body) =
      { name := firstMatchValue ("name").data ls
        description := firstMatchValue ("description").data ls } := by
  have hpre : (("---\n").data.isPrefixOf
      (("---\n").data ++ (joinLines ls ++ ("\n---\n").data ++ body))) = true := by
    rw [List.isPrefixOf_iff_prefix]
    exact List.prefix_append _ _
  rw [show ("---\n").data ++ joinLines ls ++ ("\n---\n").data ++ body =
      ("---\n").data ++ (joinLines ls ++ ("\n---\n").data ++ body) by
    simp [List.append_assoc]]
  rw [parseSkillMdMetadata, hpre]
  simp only [if_true]
  rw [show (4 : Nat) = ("---\n").data.length from rfl, List.drop_left]
  rw [show joinLines ls ++ ("\n---\n").data ++ body =
      joinLines ls ++ ('\n' :: '-' :: ("--").data) ++ ('\n' :: body) by
    simp [List.append_assoc]]
  rw [marker_through_lines ("--").data ls ('\n' :: body) hne h]
  have hsplit : splitOnChar '\n' (joinLines ls) = ls :=
    splitOnChar_joinWith '\n' ls hne (fun l hl => (h l hl).2.1)
  simp [hsplit]

theorem keyMatch_cons_not_word (c : Char) (t : Str) (h : wordChar c = false) :
    keyMatch (c :: t) = none := by
  simp [keyMatch, List.takeWhile, h]

theorem yamlStep_continuation (st : YamlState) (cLine : Str) (hk : st.currentKey ≠ [])
    (hpre : [' ', ' '].isPrefixOf cLine) :
    yamlStep st cLine =
      { st with multilineValue := st.multilineValue ++ trim cLine ++ [' '] } := by
  obtain ⟨t, ht⟩ := List.isPrefixOf_iff_prefix.mp hpre
  have hkm : keyMatch cLine = none := by
    rw [← ht]
    exact keyMatch_cons_not_word ' ' (' ' :: t) (by decide)
  rw [yamlStep, hkm]
  simp [hk, hpre]

theorem yaml_fold_cont (cs : List Str) (h : ∀ c ∈ cs, [' ', ' '].isPrefixOf c)
    (m : SkillMetadata) (k : Str) (hk : k ≠ []) :
    ∀ ml, cs.foldl yamlStep ⟨m, k, ml⟩ =
      ⟨m, k, ml ++ (cs.map (fun c => trim c ++ [' '])).flatten⟩ := by
  induction cs with
  | nil => intro ml; simp
  | cons cLine cs ih =>
    intro ml
    rw [List.foldl_cons,
      yamlStep_continuation ⟨m, k, ml⟩ cLine hk (h cLine (List.mem_cons_self _ _))]
    rw [ih (fun x hx => h x (List.mem_cons_of_mem _ hx)) (ml ++ trim cLine ++ [' '])]
    simp [List.append_assoc]

theorem trimRight_append_space (x : Str) : trimRight (x ++ [' ']) = trimRight x := by
  simp [trimRight, List.reverse_append, List.dropWhile, isWs]

theorem trim_append_space (x : Str) : trim (x ++ [' ']) = trim x := by
  rw [trim, trim, trimRight_append_space]

theorem flatten_eq_joinWith (cs : List Str) (hne : cs ≠ []) :
    (cs.map (fun c => trim c ++ [' '])).flatten = joinWith ' ' (cs.map trim) ++ [' '] := by
  induction cs with
  | nil => exact absurd rfl hne
  | cons cLine cs ih =>
    match cs with
    | [] => simp [joinWith]
    | c2 :: cs' =>
      rw [List.map_cons, List.flatten_cons, ih (by simp)]
      simp only [List.map_cons]
      rw [joinWith_cons ' ' (trim cLine) (trim c2 :: List.map trim cs') (by simp)]
      simp [List.append_assoc]


/-- C9: multiline continuation in the header parser.  For a key line
with empty value, the subsequent lines indented by at least two spaces
are trimmed and space-joined into that key's value (with an outer trim),
committed at the end of the header (first conjunct) or when a new key
line is reached (second conjunct); in particular
`"---\ndescription:\n  Line one\n  Line two\n---\n"` parses with
description `"Line one Line two"` (third conjunct). -/
theorem c9_multiline_continuation
    (kl k rk : Str) (cs : List Str)
    (hkl : keyMatch kl = some (k, rk)) (hrk : trim rk = [])
    (hklnl : '\n' ∉ kl)
    (hcs : ∀ cLine ∈ cs, [' ', ' '].isPrefixOf cLine ∧ '\n' ∉ cLine) :
    (parseYamlFrontmatter (joinLines (kl :: cs)) =
      (if cs ≠ [] then
        setMetadataValue { name := [], description := [] } k
          (trim (joinWith ' ' (cs.map trim)))
      else { name := [], description := [] })) ∧
    (∀ kl2 k2 rk2, keyMatch kl2 = some (k2, rk2) → trim rk2 ≠ [] → '\n' ∉ kl2 →
      parseYamlFrontmatter (joinLines (kl :: (cs ++ [kl2]))) =
        setMetadataValue
          (if cs ≠ [] then
            setMetadataValue { name := [], description := [] } k
              (trim (joinWith ' ' (cs.map trim)))
          else { name := [], description := [] })
          k2 (trim rk2)) ∧
    (parseSkillMd (("---\ndescription:\n  Line one\n  Line two\n---\n").data)).metadata.description
      = ("Line one Line two").data := by
  have hk : k ≠ [] := (keyMatch_sound kl k rk hkl).2.1
  have hstep : yamlStep ⟨{ name := [], description := [] }, [], []⟩ kl =
      ⟨{ name := [], description := [] }, k, []⟩ := by
    rw [yamlStep, hkl]
    simp [hrk]
  refine ⟨?_, ?_, by decide⟩
  · have hsplit : splitOnChar '\n' (joinLines (kl :: cs)) = kl :: cs := by
      refine splitOnChar_joinWith '\n' (kl :: cs) (by simp) ?_
      intro l hl
      rcases List.mem_cons.mp hl with rfl | hl
      · exact hklnl
      · exact (hcs l hl).2
    rw [parseYamlFrontmatter, hsplit, List.foldl_cons, hstep,
      yaml_fold_cont cs (fun c hc => (hcs c hc).1) _ k hk []]
    match hcase : cs with
    | [] => simp
    | c1 :: cs1 =>
      have hne : (c1 :: cs1 : List Str) ≠ [] := by simp
      rw [flatten_eq_joinWith _ hne]
      have hml : ([] : Str) ++ (joinWith ' ' ((c1 :: cs1).map trim) ++ [' ']) ≠ [] := by
        simp
      simp only [List.nil_append] at hml ⊢
      simp only [hk, hml, ne_eq, not_false_iff, and_self, if_true, hne]
      rw [trim_append_space]
  · intro kl2 k2 rk2 hkl2 hrk2 hkl2nl
    have hsplit : splitOnChar '\n' (joinLines (kl :: (cs ++ [kl2]))) = kl :: (cs ++ [kl2]) := by
      refine splitOnChar_joinWith '\n' _ (by simp) ?_
      intro l hl
      rcases List.mem_cons.mp hl with rfl | hl
      · exact hklnl
      · rcases List.mem_append.mp hl with hl | hl
        · exact (hcs l hl).2
        · rcases List.mem_singleton.mp hl with rfl
          exact hkl2nl
    rw [parseYamlFrontmatter, hsplit, List.foldl_cons, hstep, List.foldl_append,
      yaml_fold_cont cs (fun c hc => (hcs c hc).1) _ k hk [], List.foldl_cons]
    rw [yamlStep, hkl2]
    match hcase : cs with
    | [] =>
      simp only [List.nil_append, List.map_nil, List.flatten_nil, List.append_nil]
      simp [hrk2, hk]
    | c1 :: cs1 =>
      have hne : (c1 :: cs1 : List Str) ≠ [] := by simp
      rw [flatten_eq_joinWith _ hne]
      have hml : joinWith ' ' ((c1 :: cs1).map trim) ++ [' '] ≠ [] := by simp
      simp only [List.nil_append, List.foldl_nil]
      simp only [hk, hml, ne_eq, not_false_iff, and_self, if_true, hne, hrk2]
      rw [trim_append_space]
      simp [hrk2]


/-- C9 witness: the theorem applied to the key line `description:` with
two continuation lines. -/
theorem c9_multiline_continuation_witness :
    parseYamlFrontmatter
        (joinLines [("description:").data, ("  Line one").data, ("  Line two").data]) =
      setMetadataValue { name := [], description := [] } ("description").data
        (trim (joinWith ' ' ([("  Line one").data, ("  Line two").data].map trim))) := by
  have h := (c9_multiline_continuation ("description:").data ("description").data []
    [("  Line one").data, ("  Line two").data] (by decide) (by decide) (by decide)
    (by decide)).1
  simpa using h

theorem keyMatch_head_word (l k r : Str) (h : keyMatch l = some (k, r)) :
    ∃ c k1, k = c :: k1 ∧ wordChar c = true := by
  unfold keyMatch at h
  by_cases hw : (l.takeWhile wordChar).isEmpty
  · simp [hw] at h
  · simp only [hw, if_false, keyTail] at h
    match hrec : keyTailAux (l.drop (l.takeWhile wordChar).length).length
        (l.drop (l.takeWhile wordChar).length) with
    | none => rw [hrec] at h; simp at h
    | some (kp1, r1) =>
      rw [hrec] at h
      simp only [Option.some.injEq, Prod.mk.injEq] at h
      obtain ⟨hkp, hr⟩ := h
      match hl : l.takeWhile wordChar with
      | [] => rw [hl] at hw; simp at hw
      | c :: w1 =>
        refine ⟨c, w1 ++ kp1, by simp, ?_⟩
        exact List.mem_takeWhile_imp (l := l) (by rw [hl]; exact List.mem_cons_self _ _)

theorem sameLineValue_of_no_prefix (kw : Str) (ls : List Str)
    (h : ∀ l ∈ ls, ¬((kw ++ [':']).isPrefixOf l = true)) :
    sameLineValue kw ls = none := by
  induction ls with
  | nil => rfl
  | cons l ls ih =>
    rw [sameLineValue]
    rw [if_neg (by
      intro hcond
      exact h l (List.mem_cons_self _ _) hcond.1)]
    exact ih (fun x hx => h x (List.mem_cons_of_mem _ hx))

theorem yaml_fold_keyvals (kw : Str) (proj : SkillMetadata → Str)
    (hproj : ∀ m k v, proj (setMetadataValue m k v) = if k = kw then v else proj m)
    (hkw : ':' ∉ kw) (ls : List Str)
    (h : ∀ l ∈ ls, ∃ k r, keyMatch l = some (k, r) ∧ trim r ≠ [])
    (hcount : (ls.countP (fun l => ((kw ++ [':']).isPrefixOf l))) ≤ 1) :
    ∀ m, proj ((ls.foldl yamlStep ⟨m, [], []⟩).meta) =
        (match sameLineValue kw ls with
         | some v => v
         | none => proj m) ∧
      (ls.foldl yamlStep ⟨m, [], []⟩).currentKey = [] ∧
      (ls.foldl yamlStep ⟨m, [], []⟩).multilineValue = [] := by
  induction ls with
  | nil => intro m; exact ⟨rfl, rfl, rfl⟩
  | cons l ls ih =>
    intro m
    obtain ⟨k, r, hkm, hr⟩ := h l (List.mem_cons_self _ _)
    obtain ⟨hl, hknil, hkchars⟩ := keyMatch_sound l k r hkm
    have hstep : yamlStep ⟨m, [], []⟩ l = ⟨setMetadataValue m k (trim r), [], []⟩ := by
      rw [yamlStep, hkm]
      simp [hr]
    have hkcolon : ':' ∉ k := by
      intro hmem
      rcases hkchars ':' hmem with hc | hc
      · exact absurd hc (by decide)
      · exact absurd hc (by decide)
    rw [List.foldl_cons, hstep]
    by_cases hcase : k = kw
    · subst hcase
      have hpfx : ((k ++ [':']).isPrefixOf l) = true := by
        rw [List.isPrefixOf_iff_prefix, hl,
          show k ++ ':' :: r = (k ++ [':']) ++ r by simp]
        exact List.prefix_append _ _
      have hcount0 : ls.countP (fun l => ((k ++ [':']).isPrefixOf l)) = 0 := by
        rw [List.countP_cons, hpfx] at hcount
        simpa using hcount
      have hnone : sameLineValue k ls = none := by
        refine sameLineValue_of_no_prefix k ls ?_
        intro x hx hcond
        have := List.countP_eq_zero.mp hcount0 x hx
        exact this hcond
      have hdrop : l.drop (k.length + 1) = r := by
        rw [hl, show k ++ ':' :: r = (k ++ [':']) ++ r by simp,
          show k.length + 1 = (k ++ [':']).length by simp, List.drop_left]
      have hrne : r ≠ [] := by
        intro hre
        rw [hre] at hr
        exact hr rfl
      rw [sameLineValue, if_pos ⟨hpfx, by rw [hdrop]; exact hrne⟩]
      obtain ⟨ihp, ihk, ihm⟩ := ih (fun x hx => h x (List.mem_cons_of_mem _ hx))
        (by rw [hcount0]; exact Nat.zero_le 1) (setMetadataValue m k (trim r))
      rw [ihp, hnone]
      refine ⟨?_, ihk, ihm⟩
      rw [hproj, if_pos rfl, hdrop]
    · have hpfx : ((kw ++ [':']).isPrefixOf l) = false := by
        rw [Bool.eq_false_iff]
        intro hcond
        obtain ⟨t, ht⟩ := List.isPrefixOf_iff_prefix.mp hcond
        rw [show kw ++ [':'] ++ t = kw ++ ':' :: t by simp, hl] at ht
        exact hcase (sep_split k kw hkcolon hkw ht.symm).1
      have hcount1 : ls.countP (fun l => ((kw ++ [':']).isPrefixOf l)) ≤ 1 := by
        rw [List.countP_cons, hpfx] at hcount
        simpa using hcount
      rw [sameLineValue, if_neg (by
        intro hcond
        rw [hpfx] at hcond
        exact absurd hcond.1 (by simp))]
      obtain ⟨ihp, ihk, ihm⟩ := ih (fun x hx => h x (List.mem_cons_of_mem _ hx))
        hcount1 (setMetadataValue m k (trim r))
      rw [ihp]
      refine ⟨?_, ihk, ihm⟩
      rw [hproj, if_neg hcase]


theorem dropWhile_head_not (p : Char → Bool) :
    ∀ (l : Str) (c : Char) (cs : Str), l.dropWhile p = c :: cs → p c = false := by
  intro l
  induction l with
  | nil => intro c cs h; simp [List.dropWhile] at h
  | cons a t ih =>
    intro c cs h
    by_cases ha : p a
    · rw [List.dropWhile_cons_of_pos ha] at h
      exact ih c cs h
    · rw [List.dropWhile_cons_of_neg ha] at h
      obtain ⟨rfl, -⟩ : a = c ∧ t = cs := by
        constructor <;> injection h
      exact Bool.eq_false_iff.mpr ha

theorem mem_trimLeft_mem (r : Str) (c : Char) (h : c ∈ trimLeft r) : c ∈ r := by
  induction r with
  | nil => exact h
  | cons a t ih =>
    by_cases ha : isWs a
    · rw [trimLeft, List.dropWhile_cons_of_pos ha] at h
      exact List.mem_cons_of_mem _ (ih h)
    · rw [trimLeft, List.dropWhile_cons_of_neg ha] at h
      exact h

theorem trimLeft_ne_nil_of (r : Str) (h : ∃ c ∈ r, isWs c = false) : trimLeft r ≠ [] := by
  intro hnil
  obtain ⟨c, hc, hws⟩ := h
  have := List.dropWhile_eq_nil_iff.mp hnil c hc
  rw [hws] at this
  exact absurd this (by decide)

theorem trimRight_ne_nil_of (r : Str) (h : ∃ c ∈ r, isWs c = false) : trimRight r ≠ [] := by
  intro hnil
  obtain ⟨c, hc, hws⟩ := h
  rw [trimRight] at hnil
  have h2 : r.reverse.dropWhile isWs = [] := by
    cases hrv : r.reverse.dropWhile isWs with
    | nil => rfl
    | cons a t => rw [hrv] at hnil; simp at hnil
  have := List.dropWhile_eq_nil_iff.mp h2 c (List.mem_reverse.mpr hc)
  rw [hws] at this
  exact absurd this (by decide)

theorem exists_not_ws_of_trim_ne_nil (r : Str) (h : trim r ≠ []) :
    ∃ c ∈ r, isWs c = false := by
  by_contra hcon
  have hall : ∀ c ∈ r, isWs c = true := by
    intro c hc
    cases hb : isWs c with
    | false => exact absurd ⟨c, hc, hb⟩ hcon
    | true => rfl
  have h2 : trimRight r = [] := by
    rw [trimRight, List.dropWhile_eq_nil_iff.mpr
      (fun x hx => hall x (List.mem_reverse.mp hx))]
    rfl
  rw [trim, h2] at h
  exact h rfl

theorem takeWhile_append_all (p : Char → Bool) (a b : Str) (ha : ∀ c ∈ a, p c = true) :
    (a ++ b).takeWhile p = a ++ b.takeWhile p := by
  induction a with
  | nil => simp
  | cons x t ih =>
    have hx : p x = true := ha x (List.mem_cons_self _ _)
    simp only [List.cons_append, List.takeWhile_cons, hx, if_true]
    rw [ih (fun c hc => ha c (List.mem_cons_of_mem _ hc))]

theorem trimLeft_append_all (w z : Str) (hw : ∀ c ∈ w, isWs c = true) :
    trimLeft (w ++ z) = trimLeft z := by
  rw [trimLeft, trimLeft, List.dropWhile_append, List.dropWhile_eq_nil_iff.mpr hw]
  rfl

theorem trimLeft_append_of_ne (x y : Str) (h : trimLeft x ≠ []) :
    trimLeft (x ++ y) = trimLeft x ++ y := by
  simp only [trimLeft] at h ⊢
  rw [List.dropWhile_append]
  cases hd : x.dropWhile isWs with
  | nil => exact absurd hd h
  | cons a t => rfl

theorem trimRight_append_of_ne (x y : Str) (h : trimRight y ≠ []) :
    trimRight (x ++ y) = x ++ trimRight y := by
  simp only [trimRight] at h ⊢
  rw [List.reverse_append, List.dropWhile_append]
  cases hd : y.reverse.dropWhile isWs with
  | nil => rw [hd] at h; simp at h
  | cons a t => simp

theorem trim_trimLeft (r : Str) : trim (trimLeft r) = trim r := by
  by_cases hex : ∃ c ∈ r, isWs c = false
  · have hm : trimLeft r ≠ [] := trimLeft_ne_nil_of r hex
    have hmex : ∃ c ∈ trimLeft r, isWs c = false := by
      match htm : trimLeft r with
      | [] => exact absurd htm hm
      | c :: m2 =>
        exact ⟨c, List.mem_cons_self _ _, dropWhile_head_not isWs r c m2 htm⟩
    have htrm : trimRight (trimLeft r) ≠ [] := trimRight_ne_nil_of _ hmex
    have hsp : r.takeWhile isWs ++ trimLeft r = r := List.takeWhile_append_dropWhile isWs r
    have h1 : trimRight r = r.takeWhile isWs ++ trimRight (trimLeft r) := by
      conv_lhs => rw [← hsp]
      exact trimRight_append_of_ne _ _ htrm
    simp only [trim]
    rw [h1, trimLeft_append_all _ _ (fun c hc => List.mem_takeWhile_imp hc)]
  · have hall : ∀ c ∈ r, isWs c = true := by
      intro c hc
      cases hb : isWs c with
      | false => exact absurd ⟨c, hc, hb⟩ hex
      | true => rfl
    have h0 : trimLeft r = [] := List.dropWhile_eq_nil_iff.mpr hall
    have h2 : trimRight r = [] := by
      rw [trimRight, List.dropWhile_eq_nil_iff.mpr
        (fun x hx => hall x (List.mem_reverse.mp hx))]
      rfl
    rw [h0, trim, trim, h2]
    rfl

theorem matchTail_lineTail (r : Str) (rest : List Str) (hr : trim r ≠ [])
    (hnl : '\n' ∉ r) :
    matchTail (lineTail r rest) = some (trim r) := by
  have hex : ∃ c ∈ r, isWs c = false := exists_not_ws_of_trim_ne_nil r hr
  have hm : trimLeft r ≠ [] := trimLeft_ne_nil_of r hex
  have hdw : (lineTail r rest).dropWhile isWs =
      trimLeft r ++ (rest.map (fun x => '\n' :: x)).flatten :=
    trimLeft_append_of_ne r _ hm
  have hnlm : ∀ c ∈ trimLeft r, (fun c => decide (c ≠ '\n')) c = true := by
    intro c hc
    exact decide_eq_true (fun hcn => hnl (hcn ▸ mem_trimLeft_mem r c hc))
  have htw : (trimLeft r ++ (rest.map (fun x => '\n' :: x)).flatten).takeWhile
      (fun c => decide (c ≠ '\n')) = trimLeft r := by
    rw [takeWhile_append_all _ _ _ hnlm]
    match rest with
    | [] => simp
    | r0 :: rest2 => simp [List.takeWhile_cons]
  have hne : (lineTail r rest).dropWhile isWs ≠ [] := by
    intro hcontra
    rw [hdw] at hcontra
    exact hm (List.append_eq_nil.mp hcontra).1
  rw [matchTail, if_pos hne, hdw, htw, trim_trimLeft]

theorem firstMatchValue_eq_sameLine (kw : Str) (hkw : ':' ∉ kw) (ls : List Str)
    (h : ∀ l ∈ ls, ∃ k r, keyMatch l = some (k, r) ∧ trim r ≠ [] ∧ '\n' ∉ l) :
    firstMatchValue kw ls = sameLineValue kw ls := by
  induction ls with
  | nil => rfl
  | cons l rest ih =>
    by_cases hpfx : ((kw ++ [':']).isPrefixOf l) = true
    · obtain ⟨k, r, hkm, hr, hnl⟩ := h l (List.mem_cons_self _ _)
      obtain ⟨hleq, hknil, hkchars⟩ := keyMatch_sound l k r hkm
      have hkcolon : ':' ∉ k := by
        intro hmem
        rcases hkchars ':' hmem with hc | hc
        · exact absurd hc (by decide)
        · exact absurd hc (by decide)
      obtain ⟨t, ht⟩ := List.isPrefixOf_iff_prefix.mp hpfx
      rw [show kw ++ [':'] ++ t = kw ++ ':' :: t by simp, hleq] at ht
      obtain ⟨hkeq, hteq⟩ := sep_split kw k hkw hkcolon ht
      have hdrop : l.drop (kw.length + 1) = r := by
        rw [hleq, hkeq, show k ++ ':' :: r = (k ++ [':']) ++ r by simp,
          show k.length + 1 = (k ++ [':']).length by simp, List.drop_left]
      have hrne : r ≠ [] := fun hre => hr (by rw [hre]; rfl)
      have hnlr : '\n' ∉ r := by
        intro hmem
        exact hnl (by
          rw [hleq]
          exact List.mem_append_right _ (List.mem_cons_of_mem _ hmem))
      rw [firstMatchValue, if_pos hpfx, hdrop, matchTail_lineTail r rest hr hnlr]
      show some (trim r) = sameLineValue kw (l :: rest)
      rw [sameLineValue, if_pos ⟨hpfx, by rw [hdrop]; exact hrne⟩, hdrop]
    · rw [firstMatchValue, if_neg hpfx,
        sameLineValue, if_neg (fun hc => hpfx hc.1)]
      exact ih (fun x hx => h x (List.mem_cons_of_mem _ hx))

theorem setMetadataValue_name (m : SkillMetadata) (k v : Str) :
    (setMetadataValue m k v).name = if k = ("name").data then v else m.name := by
  by_cases h1 : k = ("name").data
  · simp [setMetadataValue, h1]
  · rw [if_neg h1]
    simp only [setMetadataValue, h1, if_false]
    split_ifs <;> rfl

theorem setMetadataValue_description (m : SkillMetadata) (k v : Str) :
    (setMetadataValue m k v).description =
      if k = ("description").data then v else m.description := by
  by_cases h1 : k = ("description").data
  · have h2 : ¬(k = ("name").data) := by rw [h1]; decide
    simp [setMetadataValue, h1, h2]
  · rw [if_neg h1]
    simp only [setMetadataValue, h1, if_false]
    split_ifs <;> rfl


/-- C6 counterexample: the reconciler's parser does not agree with the
4.1 parser on multiline headers — on
`"---\ndescription:\n  Line one\n  Line two\n---\n"` the 4.1 parser
joins the continuation lines, while the reconciler's regex (its `\s*`
crossing the newline) captures only the first continuation line. -/
theorem c6_counterexample :
    (parseSkillMd
        (("---\ndescription:\n  Line one\n  Line two\n---\n").data)).metadata.description =
      ("Line one Line two").data ∧
    (parseSkillMdMetadata
        (("---\ndescription:\n  Line one\n  Line two\n---\n").data)).description =
      some (("Line one").data) ∧
    ("Line one Line two").data ≠ ("Line one").data := by
  refine ⟨by decide, by decide, by decide⟩

/-- C6 (amended): the reconciler's manifest parsing agrees with the 4.1
parser on name and description (absent treated as empty) for manifests
whose header lines each carry a single-line non-empty value and whose
`name`/`description` keys occur at most once; headers using multiline
(indented continuation) values are excluded — there the reconciler
captures only the first continuation line. -/
theorem c6_reconciler_agreement (ls : List Str) (body : Str) (hne : ls ≠ [])
    (h : ∀ l ∈ ls, ∃ k r, keyMatch l = some (k, r) ∧ trim r ≠ [] ∧ '\n' ∉ l)
    (hname : (ls.countP (fun l => (("name:").data).isPrefixOf l)) ≤ 1)
    (hdesc : (ls.countP (fun l => (("description:").data).isPrefixOf l)) ≤ 1) :
    ((parseSkillMd (("---\n").data ++ joinLines ls ++ ("\n---\n").data ++ body)).metadata.name =
      (parseSkillMdMetadata
        (("---\n").data ++ joinLines ls ++ ("\n---\n").data ++ body)).name.getD []) ∧
    ((parseSkillMd
        (("---\n").data ++ joinLines ls ++ ("\n---\n").data ++ body)).metadata.description =
      (parseSkillMdMetadata
        (("---\n").data ++ joinLines ls ++ ("\n---\n").data ++ body)).description.getD []) := by
  have hlines : ∀ l ∈ ls, l ≠ [] ∧ '\n' ∉ l ∧ l.head? ≠ some '-' := by
    intro l hl
    obtain ⟨k, r, hkm, hr, hnl⟩ := h l hl
    obtain ⟨hleq, hknil, _⟩ := keyMatch_sound l k r hkm
    obtain ⟨c, k1, hk, hwc⟩ := keyMatch_head_word l k r hkm
    refine ⟨by rw [hleq, hk]; simp, hnl, ?_⟩
    rw [hleq, hk]
    simp only [List.cons_append, List.head?_cons]
    intro hcontra
    have hcd : c = '-' := by injection hcontra
    rw [hcd] at hwc
    exact absurd hwc (by decide)
  have hsplit : splitOnChar '\n' (joinLines ls) = ls :=
    splitOnChar_joinWith '\n' ls hne (fun l hl => ((h l hl).choose_spec.choose_spec.2.2))
  have hargs : ∀ l ∈ ls, ∃ k r, keyMatch l = some (k, r) ∧ trim r ≠ [] := by
    intro l hl
    obtain ⟨k, r, h1, h2, _⟩ := h l hl
    exact ⟨k, r, h1, h2⟩
  rw [parseSkillMd_of_lines ls body hne hlines, parseSkillMdMetadata_of_lines ls body hne hlines]
  constructor
  · obtain ⟨hp, hk0, hm0⟩ := yaml_fold_keyvals ("name").data (fun m => m.name)
      setMetadataValue_name (by decide) ls hargs hname { name := [], description := [] }
    rw [parseYamlFrontmatter, hsplit]
    rw [if_neg (by rw [hk0]; simp)]
    rw [hp, firstMatchValue_eq_sameLine ("name").data (by decide) ls h]
    cases hfv : sameLineValue ("name").data ls <;> simp [hfv]
  · obtain ⟨hp, hk0, hm0⟩ := yaml_fold_keyvals ("description").data (fun m => m.description)
      setMetadataValue_description (by decide) ls hargs hdesc { name := [], description := [] }
    rw [parseYamlFrontmatter, hsplit]
    rw [if_neg (by rw [hk0]; simp)]
    rw [hp, firstMatchValue_eq_sameLine ("description").data (by decide) ls h]
    cases hfv : sameLineValue ("description").data ls <;> simp [hfv]

/-- C6 witness: agreement at a concrete two-key manifest. -/
theorem c6_reconciler_agreement_witness :
    ((parseSkillMd (("---\nname: Foo\ndescription: Bar\n---\nb").data)).metadata.name =
      (parseSkillMdMetadata
        (("---\nname: Foo\ndescription: Bar\n---\nb").data)).name.getD []) ∧
    (parseSkillMd (("---\nname: Foo\ndescription: Bar\n---\nb").data)).metadata.name =
      ("Foo").data := by
  have heq : ("---\n").data ++ joinLines [("name: Foo").data, ("description: Bar").data] ++
      ("\n---\n").data ++ ("b").data =
      ("---\nname: Foo\ndescription: Bar\n---\nb").data := by decide
  have h := c6_reconciler_agreement [("name: Foo").data, ("description: Bar").data]
    ("b").data (by simp) ?hl (by decide) (by decide)
  case hl =>
    intro l hl
    rcases List.mem_cons.mp hl with rfl | hl
    · exact ⟨("name").data, (" Foo").data, by decide, by decide, by decide⟩
    · rcases List.mem_singleton.mp hl with rfl
      exact ⟨("description").data, (" Bar").data, by decide, by decide, by decide⟩
  rw [heq] at h
  exact ⟨h.1, by decide⟩



/-! ### Claim C4 -/


theorem treeKey_ne_rawKey (o r b o2 r2 p2 b2 : Str) :
    treeKey o r b ≠ rawKey o2 r2 p2 b2 := by
  intro h
  have h1 : (treeKey o r b).head? = some 't' := rfl
  have h2 : (rawKey o2 r2 p2 b2).head? = some 'r' := rfl
  rw [h] at h1
  exact absurd (h1.symm.trans h2) (by decide)

theorem rawKey_inj_path (o r b p q : Str) (h : rawKey o r p b = rawKey o r q b) :
    p = q := by
  rw [rawKey_norm, rawKey_norm] at h
  have h1 := List.append_cancel_left h
  have h2 : r ++ '/' :: (p ++ '@' :: b) = r ++ '/' :: (q ++ '@' :: b) := by
    have h1a := List.append_cancel_left h1
    injection h1a
  have h3 : p ++ '@' :: b = q ++ '@' :: b := by
    have h2a := List.append_cancel_left h2
    injection h2a
  exact List.append_cancel_right h3

theorem rawKeyOf_inj (repo : SkillRepository) (p q : Str)
    (h : rawKeyOf repo p = rawKeyOf repo q) : p = q := by
  have := rawKey_inj_path repo.owner repo.repo repo.branch _ _ h
  exact List.append_cancel_right this

theorem lookupC_setCache_ne_none (c : Cache) (k k2 : Str) (v : CachedVal) (t : Nat)
    (h : lookupC c k2 ≠ none) : lookupC (setCache c k v t) k2 ≠ none := by
  by_cases hk : k = k2
  · subst hk
    rw [lookupC_setCache_self]
    simp
  · rw [lookupC_setCache_ne c k k2 v t hk]
    exact h

theorem filterMap_id_map_some {α : Type} (xs : List α) :
    (xs.map some).filterMap id = xs := by
  induction xs with
  | nil => rfl
  | cons x xs ih => simp [List.filterMap_cons, ih]

theorem fetchRawContent_treeCalls (env : NetEnv) (t cfg : Nat) (c : Cache)
    (o r p b : Str) : (fetchRawContent env t cfg c o r p b).treeCalls = 0 := by
  rw [fetchRawContent]
  match getFromCache c t cfg (rawKey o r p b) with
  | (some v, c2) => rfl
  | (none, c2) =>
    match env.raw o r p b with
    | .error e2 => rfl
    | .ok s => rfl

theorem fetchFilesLoop_treeCalls (env : NetEnv) (t cfg : Nat)
    (o r b sp : Str) :
    ∀ (items : List GitTreeItem) (c : Cache),
      (fetchFilesLoop env t cfg o r b sp c items).treeCalls = 0 := by
  intro items
  induction items with
  | nil => intro c; rfl
  | cons item rest ih =>
    intro c
    rw [fetchFilesLoop]
    cases hres : (fetchRawContent env t cfg c o r item.path b).result with
    | error e => simp [hres, fetchRawContent_treeCalls]
    | ok content =>
      have hrec := ih (fetchRawContent env t cfg c o r item.path b).cache
      simp only [hres]
      cases hr2 : (fetchFilesLoop env t cfg o r b sp
          (fetchRawContent env t cfg c o r item.path b).cache rest).result <;>
        simp [hr2, fetchRawContent_treeCalls, hrec]


theorem fetchSkillMetadataRaw_ok (env : NetEnv) (t cfg : Nat) (repo : SkillRepository)
    (c : Cache) (p : Str) (content : Str)
    (hok : env.raw repo.owner repo.repo (p ++ ("/SKILL.md").data) repo.branch = .ok content)
    (hinv : CacheOkAt env repo cfg t c p) :
    (fetchSkillMetadataRaw env t cfg c repo (basenameOr p) p =
        ⟨some (skillFor env repo p), c, 0, 0⟩ ∧
      lookupC c (rawKeyOf repo p) ≠ none) ∨
    (fetchSkillMetadataRaw env t cfg c repo (basenameOr p) p =
        ⟨some (skillFor env repo p),
          setCache c (rawKeyOf repo p) (.raw content) t, 0, 1⟩ ∧
      lookupC c (rawKeyOf repo p) = none) := by
  have hcontent : envContent env repo p = content := by
    simp [envContent, hok]
  rcases hinv with hnone | ⟨content2, ts, hsome, hfresh, hok2⟩
  · right
    refine ⟨?_, hnone⟩
    rw [fetchSkillMetadataRaw, fetchRawContent,
      getFromCache_of_lookup_none c t cfg
        (rawKey repo.owner repo.repo (p ++ ("/SKILL.md").data) repo.branch) hnone]
    simp only [hok]
    simp [skillFor, hcontent, rawKeyOf]
  · left
    have hc2 : content2 = content := by
      rw [hok] at hok2
      injection hok2.symm
    refine ⟨?_, by rw [hsome]; simp⟩
    rw [fetchSkillMetadataRaw, fetchRawContent,
      getFromCache_fresh c t cfg
        (rawKey repo.owner repo.repo (p ++ ("/SKILL.md").data) repo.branch)
        ⟨.raw content2, ts⟩ hsome hfresh]
    simp [skillFor, hcontent, CachedVal.getRaw, hc2]


theorem fetchSkillsLoop_ok (env : NetEnv) (t cfg : Nat) (repo : SkillRepository) :
    ∀ (ps : List Str) (c : Cache),
    (∀ q, CacheOkAt env repo cfg t c q) →
    (∀ p ∈ ps, ∃ content,
        env.raw repo.owner repo.repo (p ++ ("/SKILL.md").data) repo.branch = .ok content) →
    ∃ c2 n,
      fetchSkillsLoop env t cfg repo c ps =
        ⟨ps.map (fun p => some (skillFor env repo p)), c2, 0, n⟩ ∧
      (∀ q, CacheOkAt env repo cfg t c2 q) ∧
      (∀ k, (∀ p ∈ ps, k ≠ rawKeyOf repo p) → lookupC c2 k = lookupC c k) ∧
      (∀ p ∈ ps, lookupC c2 (rawKeyOf repo p) ≠ none) ∧
      (∀ q, lookupC c2 (rawKeyOf repo q) = lookupC c (rawKeyOf repo q) ∨
        ∃ ct, lookupC c2 (rawKeyOf repo q) = some ⟨.raw ct, t⟩) ∧
      ((∀ p ∈ ps, lookupC c (rawKeyOf repo p) ≠ none) → c2 = c ∧ n = 0) := by
  intro ps
  induction ps with
  | nil =>
    intro c hinv hoks
    exact ⟨c, 0, rfl, hinv, fun k _ => rfl, by simp, fun q => Or.inl rfl,
      fun _ => ⟨rfl, rfl⟩⟩
  | cons p ps ih =>
    intro c hinv hoks
    obtain ⟨content, hok⟩ := hoks p (List.mem_cons_self _ _)
    rcases fetchSkillMetadataRaw_ok env t cfg repo c p content hok (hinv p) with
      ⟨hstep, hpres⟩ | ⟨hstep, habs⟩
    · obtain ⟨c2, n, hrec, hinv2, hg, hd, hf, he⟩ := ih c hinv
        (fun q hq => hoks q (List.mem_cons_of_mem _ hq))
      refine ⟨c2, n, ?_, hinv2, ?_, ?_, hf, ?_⟩
      · rw [fetchSkillsLoop, hstep, hrec]
        simp
      · intro k hk
        exact hg k (fun q hq => hk q (List.mem_cons_of_mem _ hq))
      · intro q hq
        rcases List.mem_cons.mp hq with rfl | hq
        · by_cases hcase : ∃ p2 ∈ ps, rawKeyOf repo q = rawKeyOf repo p2
          · obtain ⟨p2, hp2, hkey⟩ := hcase
            rw [hkey]
            exact hd p2 hp2
          · push_neg at hcase
            rw [hg _ hcase]
            exact hpres
        · exact hd q hq
      · intro hall
        exact he (fun q hq => hall q (List.mem_cons_of_mem _ hq))
    · have hinv2 : ∀ q, CacheOkAt env repo cfg t
          (setCache c (rawKeyOf repo p) (.raw content) t) q := by
        intro q
        by_cases hkey : rawKeyOf repo q = rawKeyOf repo p
        · right
          have hq : q = p := rawKeyOf_inj repo q p hkey
          refine ⟨content, t, ?_, by omega, by rw [hq]; exact hok⟩
          rw [hkey]
          exact lookupC_setCache_self c _ _ t
        · have hl : lookupC (setCache c (rawKeyOf repo p) (.raw content) t)
              (rawKeyOf repo q) = lookupC c (rawKeyOf repo q) :=
            lookupC_setCache_ne c _ _ _ _ (fun he2 => hkey he2.symm)
          rcases hinv q with h1 | ⟨ct, ts, h1, h2, h3⟩
          · left
            rw [hl]
            exact h1
          · right
            exact ⟨ct, ts, by rw [hl]; exact h1, h2, h3⟩
      obtain ⟨c2, n, hrec, hinv3, hg, hd, hf, he⟩ := ih
        (setCache c (rawKeyOf repo p) (.raw content) t) hinv2
        (fun q hq => hoks q (List.mem_cons_of_mem _ hq))
      refine ⟨c2, 1 + n, ?_, hinv3, ?_, ?_, ?_, ?_⟩
      · rw [fetchSkillsLoop, hstep, hrec]
        simp
      · intro k hk
        rw [hg k (fun q hq => hk q (List.mem_cons_of_mem _ hq))]
        exact lookupC_setCache_ne c _ _ _ _
          (fun he2 => (hk p (List.mem_cons_self _ _)) he2.symm)
      · intro q hq
        rcases List.mem_cons.mp hq with rfl | hq
        · by_cases hcase : ∃ p2 ∈ ps, rawKeyOf repo q = rawKeyOf repo p2
          · obtain ⟨p2, hp2, hkey⟩ := hcase
            rw [hkey]
            exact hd p2 hp2
          · push_neg at hcase
            rw [hg _ hcase, lookupC_setCache_self]
            simp
        · exact hd q hq
      · intro q
        rcases hf q with h4 | ⟨ct, h4⟩
        · by_cases hkey : rawKeyOf repo q = rawKeyOf repo p
          · right
            refine ⟨content, ?_⟩
            rw [h4, hkey]
            exact lookupC_setCache_self c _ _ t
          · left
            rw [h4]
            exact lookupC_setCache_ne c _ _ _ _ (fun he2 => hkey he2.symm)
        · exact Or.inr ⟨ct, h4⟩
      · intro hall
        exact absurd habs (hall p (List.mem_cons_self _ _))


/-- C4 (amended): resolution is idempotent under the cache when every
network fetch of the first pass succeeded.  Starting from an empty
cache, if the first resolution's listing fetch and every selected
manifest fetch succeed and the second resolution happens within the
timeout window of the first, the second resolution returns an equal
skill list with zero listing and zero raw fetches, and a subsequent
`fetchSkillFiles` on any returned skill performs no new listing call;
likewise for `singleSkill` descriptors (which never populate the listing
cache). -/
theorem c4_idempotence (env : NetEnv) (t1 t2 cfg : Nat) (repo : SkillRepository)
    (hwin : t2 - t1 ≤ cfg * 1000) :
    (repo.singleSkill = false →
      ∀ data, env.tree repo.owner repo.repo repo.branch = .ok data →
      (∀ p ∈ (data.tree.filter (isSkillMdEntry repo.path)).map
          (fun item => upToLastSlash item.path),
        ∃ content, env.raw repo.owner repo.repo (p ++ ("/SKILL.md").data) repo.branch =
          .ok content) →
      (fetchSkillsFromRepo env t2 cfg (fetchSkillsFromRepo env t1 cfg [] repo).cache
          repo).result = (fetchSkillsFromRepo env t1 cfg [] repo).result ∧
      (fetchSkillsFromRepo env t2 cfg (fetchSkillsFromRepo env t1 cfg [] repo).cache
          repo).treeCalls = 0 ∧
      (fetchSkillsFromRepo env t2 cfg (fetchSkillsFromRepo env t1 cfg [] repo).cache
          repo).rawCalls = 0 ∧
      (∀ skills, (fetchSkillsFromRepo env t1 cfg [] repo).result = .ok skills →
        ∀ s ∈ skills,
          (fetchSkillFiles env t2 cfg (fetchSkillsFromRepo env t1 cfg [] repo).cache
            s).treeCalls = 0)) ∧
    (repo.singleSkill = true →
      (∃ content, env.raw repo.owner repo.repo (repo.path ++ ("/SKILL.md").data)
          repo.branch = .ok content) →
      (fetchSkillsFromRepo env t2 cfg (fetchSkillsFromRepo env t1 cfg [] repo).cache
          repo).result = (fetchSkillsFromRepo env t1 cfg [] repo).result ∧
      (fetchSkillsFromRepo env t2 cfg (fetchSkillsFromRepo env t1 cfg [] repo).cache
          repo).treeCalls = 0 ∧
      (fetchSkillsFromRepo env t2 cfg (fetchSkillsFromRepo env t1 cfg [] repo).cache
          repo).rawCalls = 0) := by
  constructor
  · intro hsingle data hdata hraws
    have htree1 : fetchRepoTree env t1 cfg [] repo.owner repo.repo repo.branch =
        ⟨.ok data, setCache [] (treeKey repo.owner repo.repo repo.branch)
          (.tree data) t1, 1, 0⟩ := by
      rw [fetchRepoTree,
        getFromCache_of_lookup_none [] t1 cfg (treeKey repo.owner repo.repo repo.branch) rfl,
        hdata]
    have hinv_t : ∀ q, CacheOkAt env repo cfg t1
        (setCache [] (treeKey repo.owner repo.repo repo.branch) (.tree data) t1) q := by
      intro q
      left
      exact (lookupC_setCache_ne [] (treeKey repo.owner repo.repo repo.branch)
        (rawKeyOf repo q) (.tree data) t1 (treeKey_ne_rawKey _ _ _ _ _ _ _)).trans rfl
    obtain ⟨c1, n, hloop1, hinv1, hg1, hd1, hf1, he1⟩ :=
      fetchSkillsLoop_ok env t1 cfg repo
        ((data.tree.filter (isSkillMdEntry repo.path)).map
          (fun item => upToLastSlash item.path))
        (setCache [] (treeKey repo.owner repo.repo repo.branch) (.tree data) t1)
        hinv_t hraws
    have hrun1 : fetchSkillsFromRepo env t1 cfg [] repo =
        ⟨.ok (((data.tree.filter (isSkillMdEntry repo.path)).map
            (fun item => upToLastSlash item.path)).map (skillFor env repo)),
          c1, 1 + 0, 0 + n⟩ := by
      rw [fetchSkillsFromRepo, if_neg (by rw [hsingle]; simp), htree1]
      simp only []
      rw [hloop1]
      simp only []
      rw [show (fun p => some (skillFor env repo p)) = some ∘ (skillFor env repo)
          from rfl, ← List.map_map, filterMap_id_map_some]
    have htreelookup : lookupC c1 (treeKey repo.owner repo.repo repo.branch) =
        some ⟨.tree data, t1⟩ := by
      rw [hg1 _ (fun p hp => treeKey_ne_rawKey _ _ _ _ _ _ _)]
      exact lookupC_setCache_self [] _ _ t1
    have htree2 : fetchRepoTree env t2 cfg c1 repo.owner repo.repo repo.branch =
        ⟨.ok data, c1, 0, 0⟩ := by
      rw [fetchRepoTree,
        getFromCache_fresh c1 t2 cfg (treeKey repo.owner repo.repo repo.branch)
          ⟨.tree data, t1⟩ htreelookup (by show t2 - t1 ≤ _; exact hwin)]
      rfl
    have hinv1t2 : ∀ q, CacheOkAt env repo cfg t2 c1 q := by
      intro q
      rcases hinv1 q with h1 | ⟨ct, ts, h1, h2, h3⟩
      · exact Or.inl h1
      · rcases hf1 q with h4 | ⟨ct2, h4⟩
        · rw [h4] at h1
          have h9 : lookupC (setCache [] (treeKey repo.owner repo.repo repo.branch)
              (CachedVal.tree data) t1) (rawKeyOf repo q) = none :=
            (lookupC_setCache_ne [] (treeKey repo.owner repo.repo repo.branch)
              (rawKeyOf repo q) (.tree data) t1
              (treeKey_ne_rawKey _ _ _ _ _ _ _)).trans rfl
          rw [h9] at h1
          simp at h1
        · rw [h4] at h1
          right
          refine ⟨ct2, t1, h4, hwin, ?_⟩
          have h5 : (⟨.raw ct2, t1⟩ : CacheEntry) = ⟨.raw ct, ts⟩ := by
            injection h1
          have h6 : CachedVal.raw ct2 = CachedVal.raw ct := congrArg CacheEntry.data h5
          have h7 : ct2 = ct := by injection h6
          rw [h7]
          exact h3
    obtain ⟨c2, n2, hloop2, hA, hB, hC, hD, he2⟩ :=
      fetchSkillsLoop_ok env t2 cfg repo
        ((data.tree.filter (isSkillMdEntry repo.path)).map
          (fun item => upToLastSlash item.path)) c1 hinv1t2 hraws
    obtain ⟨hc2, hn2⟩ := he2 hd1
    have hrun2 : fetchSkillsFromRepo env t2 cfg c1 repo =
        ⟨.ok (((data.tree.filter (isSkillMdEntry repo.path)).map
            (fun item => upToLastSlash item.path)).map (skillFor env repo)),
          c2, 0 + 0, 0 + n2⟩ := by
      rw [fetchSkillsFromRepo, if_neg (by rw [hsingle]; simp), htree2]
      simp only []
      rw [hloop2]
      simp only []
      rw [show (fun p => some (skillFor env repo p)) = some ∘ (skillFor env repo)
          from rfl, ← List.map_map, filterMap_id_map_some]
    rw [hrun1]
    simp only []
    rw [hrun2]
    refine ⟨rfl, rfl, by rw [hn2], ?_⟩
    intro skills hsk s hs
    have hsk2 : skills = ((data.tree.filter (isSkillMdEntry repo.path)).map
        (fun item => upToLastSlash item.path)).map (skillFor env repo) := by
      injection hsk.symm
    rw [hsk2] at hs
    obtain ⟨p, hp, rfl⟩ := List.mem_map.mp hs
    rw [fetchSkillFiles]
    have hsrc : (skillFor env repo p).source = repo := rfl
    rw [hsrc, htree2]
    simp only []
    rw [fetchFilesLoop_treeCalls]
  · rintro hsingle ⟨content, hok⟩
    rcases fetchSkillMetadataRaw_ok env t1 cfg repo [] repo.path content hok
        (Or.inl rfl) with ⟨_, habs⟩ | ⟨hstep1, _⟩
    · exact absurd rfl habs
    · have hrun1 : fetchSkillsFromRepo env t1 cfg [] repo =
          ⟨.ok [skillFor env repo repo.path],
            setCache [] (rawKeyOf repo repo.path) (.raw content) t1, 0, 1⟩ := by
        rw [fetchSkillsFromRepo, if_pos hsingle, fetchSingleSkill, hstep1]
      have hinv2 : CacheOkAt env repo cfg t2
          (setCache [] (rawKeyOf repo repo.path) (.raw content) t1) repo.path :=
        Or.inr ⟨content, t1, lookupC_setCache_self [] _ _ t1, hwin, hok⟩
      rcases fetchSkillMetadataRaw_ok env t2 cfg repo
          (setCache [] (rawKeyOf repo repo.path) (.raw content) t1) repo.path content
          hok hinv2 with ⟨hstep2, _⟩ | ⟨_, habs⟩
      · have hrun2 : fetchSkillsFromRepo env t2 cfg
            (setCache [] (rawKeyOf repo repo.path) (.raw content) t1) repo =
            ⟨.ok [skillFor env repo repo.path],
              setCache [] (rawKeyOf repo repo.path) (.raw content) t1, 0, 0⟩ := by
          rw [fetchSkillsFromRepo, if_pos hsingle, fetchSingleSkill, hstep2]
        rw [hrun1]
        simp only []
        rw [hrun2]
        exact ⟨rfl, rfl, rfl⟩
      · rw [lookupC_setCache_self] at habs
        simp at habs



/-- C4 counterexample: a manifest fetch that failed in the first pass is
not cached, so the second pass re-issues it — with a listing containing
one skill directory whose raw fetch always fails, both passes return the
empty list but the second pass still performs one raw network fetch,
refuting "performs zero network fetches". -/
theorem c4_counterexample :
    (fetchSkillsFromRepo c4Env 0 3600 [] c4Repo).result = .ok [] ∧
    (fetchSkillsFromRepo c4Env 0 3600
      (fetchSkillsFromRepo c4Env 0 3600 [] c4Repo).cache c4Repo).result = .ok [] ∧
    (fetchSkillsFromRepo c4Env 0 3600
      (fetchSkillsFromRepo c4Env 0 3600 [] c4Repo).cache c4Repo).rawCalls = 1 := by
  refine ⟨rfl, rfl, rfl⟩


/-- C4 witness: the amended theorem at a concrete one-skill repository. -/
theorem c4_idempotence_witness :
    (fetchSkillsFromRepo c4WEnv 5 1
        (fetchSkillsFromRepo c4WEnv 0 1 [] c4WRepo).cache c4WRepo).result =
      (fetchSkillsFromRepo c4WEnv 0 1 [] c4WRepo).result ∧
    (fetchSkillsFromRepo c4WEnv 5 1
        (fetchSkillsFromRepo c4WEnv 0 1 [] c4WRepo).cache c4WRepo).treeCalls = 0 ∧
    (fetchSkillsFromRepo c4WEnv 5 1
        (fetchSkillsFromRepo c4WEnv 0 1 [] c4WRepo).cache c4WRepo).rawCalls = 0 := by
  have h := (c4_idempotence c4WEnv 0 5 1 c4WRepo (by decide)).1 rfl
    { tree := [⟨("skills/a/SKILL.md").data, .blob⟩] } rfl ?hraws
  case hraws =>
    intro p hp
    exact ⟨("---\nname: A\n---\nbody").data, rfl⟩
  exact ⟨h.1, h.2.1, h.2.2.1⟩

end AgentSkills
